import Mathlib

/-!
Verification development for the CRRI-Chatbot repository.

The repository has three parts relevant to the claims checked here:

* a data-retention ("smart cleanup") engine, `scripts/cleanup_old_data.py`.
  That script is not part of the repository snapshot (only its documentation
  `docs/PIPELINE_README.md` / `docs/QUICK_REFERENCE.md` and its caller
  `scripts/run_full_pipeline.sh` are), so the retention engine below is
  modelled from the specification's words (see the doc comments that start
  with `Modelled from the spec:`);
* the pipeline orchestrator `scripts/run_full_pipeline.sh`, a bash script that
  runs under `set -e`; it is embedded below as a literal command list together
  with an interpreter implementing bash's `set -e` semantics;
* the React frontend (`frontend/src/utils/api.js`,
  `frontend/src/components/ChatContainer.jsx`,
  `frontend/src/components/MessageBubble.jsx`), whose string/JSON payload
  extraction and error handling are embedded as pure functions over `List Char`.
-/

namespace CRRI

/-! ## Retention Policy Engine (modelled from the spec) -/

/-- Modelled from the spec: `RetentionRule` mode — `keep-latest-1` or
`keep-within-duration` (`scripts/cleanup_old_data.py` is missing from the
snapshot; docs/PIPELINE_README.md documents the behaviour). -/
inductive RetentionMode where
  | keepLatest1 : RetentionMode
  | keepWithinDuration (duration : Nat) : RetentionMode
deriving DecidableEq, Repr

/-- Modelled from the spec: a `ManagedFile` is a filesystem entry under a
managed directory, with its `path`, its `category` (derived from the filename
pattern) and its `timestamp` (extracted from the filename). -/
structure ManagedFile where
  path : String
  category : String
  timestamp : Nat
deriving DecidableEq, Repr

/-- Modelled from the spec: the rule set maps category patterns to retention
modes, and names the one designated protected file (`contacts.pdf`), which is
matched by exact name. -/
structure RuleSet where
  rules : List (String × RetentionMode)
  protectedName : String
deriving DecidableEq, Repr

/-- First matching rule for a category pattern. -/
def lookupRule : List (String × RetentionMode) → String → Option RetentionMode
  | [], _ => none
  | (p, m) :: rest, c => if p = c then some m else lookupRule rest c

/-- Modelled from the spec: the protected-file check happens before category
classification and short-circuits it; unmatched files are never planned. -/
def eligibleMode (rs : RuleSet) (f : ManagedFile) : Option RetentionMode :=
  if f.path = rs.protectedName then none else lookupRule rs.rules f.category

/-- Modelled from the spec: `g` is strictly later than `f` in the retention
order — larger extracted timestamp, ties broken by lexicographic filename
order. -/
def laterThan (g f : ManagedFile) : Bool :=
  decide (f.timestamp < g.timestamp) ||
    (decide (f.timestamp = g.timestamp) && decide (f.path < g.path))

/-- Modelled from the spec: a file is planned for deletion iff it is not
protected, its category matches a rule, and (`keep-latest-1`) some other
eligible file of the same category is strictly later, or
(`keep-within-duration`) its timestamp is older than `now - duration`. -/
def plannedForDeletion (files : List ManagedFile) (rs : RuleSet) (now : Nat)
    (f : ManagedFile) : Bool :=
  match eligibleMode rs f with
  | none => false
  | some RetentionMode.keepLatest1 =>
      files.any fun g =>
        decide (g.category = f.category) && decide (g.path ≠ rs.protectedName) &&
          laterThan g f
  | some (RetentionMode.keepWithinDuration d) => decide (f.timestamp + d < now)

/-- Human-readable reason attached to a plan entry. -/
def reasonFor (rs : RuleSet) (f : ManagedFile) : String :=
  match eligibleMode rs f with
  | some RetentionMode.keepLatest1 => "stale: newer file exists in category"
  | some (RetentionMode.keepWithinDuration _) => "older than retention window"
  | none => ""

/-- Modelled from the spec: `plan(directory, rules) -> DeletionPlan`, an
ordered sequence of `(file, reason)` pairs; a pure function of the directory
listing, the rules and the current time. -/
def plan (files : List ManagedFile) (rs : RuleSet) (now : Nat) :
    List (ManagedFile × String) :=
  (files.filter (plannedForDeletion files rs now)).map fun f => (f, reasonFor rs f)

/-- Modelled from the spec: one File Janitor step — re-checks the protection
flag at execution time (defense in depth), deletes the file when present,
records `(file, action)` in the report, and never aborts the batch. -/
def execStep (rs : RuleSet) (st : List ManagedFile × List (ManagedFile × String))
    (e : ManagedFile × String) : List ManagedFile × List (ManagedFile × String) :=
  if e.1.path = rs.protectedName then (st.1, st.2 ++ [(e.1, "skipped-protected")])
  else if e.1 ∈ st.1 then (st.1.erase e.1, st.2 ++ [(e.1, "deleted")])
  else (st.1, st.2 ++ [(e.1, "skipped-missing")])

/-- Modelled from the spec: `execute(plan) -> ExecutionReport`; processes plan
entries in order, returning the remaining directory contents and the report. -/
def execute (rs : RuleSet) (files : List ManagedFile)
    (p : List (ManagedFile × String)) :
    List ManagedFile × List (ManagedFile × String) :=
  p.foldl (execStep rs) (files, [])

/-- The log-retention window documented for `data/logs/`: seven days. -/
def sevenDays : Nat := 7 * 24 * 60 * 60

/-! ## Pipeline Orchestrator (`scripts/run_full_pipeline.sh`) -/

/-- The external stages invoked by `scripts/run_full_pipeline.sh`. -/
inductive Stage where
  | cleanupPre | scrapeStaff | scrapeNews | scrapeEquipment
  | scrapeTenders | scrapeEvents | processData | uploadPinecone | cleanupPost
deriving DecidableEq, Repr

/-- Exit codes the external stage commands would return if run. -/
structure StageCodes where
  cleanupPre : Nat
  scrapeStaff : Nat
  scrapeNews : Nat
  scrapeEquipment : Nat
  scrapeTenders : Nat
  scrapeEvents : Nat
  processData : Nat
  uploadPinecone : Nat
  cleanupPost : Nat
deriving DecidableEq, Repr

def exitCodeOf (env : StageCodes) : Stage → Nat
  | Stage.cleanupPre => env.cleanupPre
  | Stage.scrapeStaff => env.scrapeStaff
  | Stage.scrapeNews => env.scrapeNews
  | Stage.scrapeEquipment => env.scrapeEquipment
  | Stage.scrapeTenders => env.scrapeTenders
  | Stage.scrapeEvents => env.scrapeEvents
  | Stage.processData => env.processData
  | Stage.uploadPinecone => env.uploadPinecone
  | Stage.cleanupPost => env.cleanupPost

/-- The command shapes occurring in `run_full_pipeline.sh`:
`runStage s` is an external stage invocation (`conda run ... >> "$LOG_FILE" 2>&1`);
`checkElseLog` is `if [ $? -eq 0 ]; then log ok; else log fail; fi`
(the cleanup steps, which log "continuing anyway" / "non-critical");
`checkElseExit` is `if [ $? -eq 0 ]; then log ok; else log fail; exit 1; fi`
(the scrape/process/upload steps); `logLine` is a `log`/`mkdir -p`/`cd` line
whose exit status is 0. -/
inductive Cmd where
  | runStage (s : Stage)
  | checkElseLog
  | checkElseExit
  | logLine
deriving DecidableEq, Repr

/-- The literal command sequence of `scripts/run_full_pipeline.sh`
(consecutive log lines collapsed into single `logLine`s). -/
def pipelineScript : List Cmd :=
  [Cmd.logLine,
   Cmd.logLine, Cmd.runStage Stage.cleanupPre, Cmd.checkElseLog,
   Cmd.logLine, Cmd.runStage Stage.scrapeStaff, Cmd.checkElseExit,
   Cmd.logLine, Cmd.runStage Stage.scrapeNews, Cmd.checkElseExit,
   Cmd.logLine, Cmd.runStage Stage.scrapeEquipment, Cmd.checkElseExit,
   Cmd.logLine, Cmd.runStage Stage.scrapeTenders, Cmd.checkElseExit,
   Cmd.logLine, Cmd.runStage Stage.scrapeEvents, Cmd.checkElseExit,
   Cmd.logLine,
   Cmd.logLine, Cmd.runStage Stage.processData, Cmd.checkElseExit,
   Cmd.logLine, Cmd.runStage Stage.uploadPinecone, Cmd.checkElseExit,
   Cmd.logLine, Cmd.runStage Stage.cleanupPost, Cmd.checkElseLog,
   Cmd.logLine]

/-- Outcome of a run: which external stages were invoked, and the script's
exit code. -/
structure RunResult where
  executed : List Stage
  exitCode : Nat
deriving DecidableEq, Repr

/-- Interpreter for the script under `set -e` (line 5 of the script):
a failing simple command terminates the shell immediately with that command's
exit code, before any following `if [ $? -eq 0 ]` test runs.  The test itself
is a condition context, so a nonzero `[` result does not trigger `set -e`.
`last` is the current value of `$?`. -/
def runCmds (env : StageCodes) : List Cmd → Nat → List Stage → RunResult
  | [], last, ex => ⟨ex, last⟩
  | Cmd.runStage s :: rest, _, ex =>
      let c := exitCodeOf env s
      if c = 0 then runCmds env rest 0 (ex ++ [s]) else ⟨ex ++ [s], c⟩
  | Cmd.checkElseLog :: rest, _, ex => runCmds env rest 0 ex
  | Cmd.checkElseExit :: rest, last, ex =>
      if last = 0 then runCmds env rest 0 ex else ⟨ex, 1⟩
  | Cmd.logLine :: rest, _, ex => runCmds env rest 0 ex

/-- One run of `scripts/run_full_pipeline.sh`. -/
def runPipeline (env : StageCodes) : RunResult := runCmds env pipelineScript 0 []

/-- Environment in which only the STEP 1 cleanup invocation fails. -/
def envCleanupPreFails : StageCodes := ⟨1, 0, 0, 0, 0, 0, 0, 0, 0⟩

/-- Environment in which only the STEP 5 final cleanup invocation fails. -/
def envCleanupPostFails : StageCodes := ⟨0, 0, 0, 0, 0, 0, 0, 0, 1⟩

/-! ## Frontend: JSON values and `JSON.parse`

`MessageBubble.jsx` extracts JSON payloads from the bot's answer text with
two regexes and `JSON.parse`; `api.js` reads `data.answer` / `errorData.detail`
from parsed response bodies.  Texts are embedded as `List Char`.  The JSON
model covers the fragment exercised by the frontend (objects, arrays, strings
with the standard escapes, integer numbers, literals); `JSON.parse` of
fractional/exponent numbers is outside the modelled fragment. -/

/-- A parsed JSON value (JS object keys are kept in source order). -/
inductive Json where
  | null : Json
  | jbool (b : Bool) : Json
  | jnum (n : Int) : Json
  | jstr (s : List Char) : Json
  | jarr (elems : List Json) : Json
  | jobj (fields : List (List Char × Json)) : Json

/-- The left brace character (written via its code point throughout). -/
def lbrace : Char := Char.ofNat 123

/-- The right brace character. -/
def rbrace : Char := Char.ofNat 125

/-- The backtick character. -/
def btick : Char := Char.ofNat 96

/-- The apostrophe character. -/
def apos : Char := Char.ofNat 39

/-- JSON insignificant whitespace (RFC 8259). -/
def isJsonWs (c : Char) : Bool := c = ' ' || c = '\t' || c = '\n' || c = '\r'

/-- JavaScript `\s` / `String.trim` whitespace (the ASCII part). -/
def isJsWsChar (c : Char) : Bool :=
  c = ' ' || c = '\t' || c = '\n' || c = '\r' ||
    c = Char.ofNat 11 || c = Char.ofNat 12

def skipJsonWs (s : List Char) : List Char := s.dropWhile isJsonWs

def hexDigitVal (c : Char) : Option Nat :=
  if c.isDigit then some (c.toNat - 48)
  else if 'a' ≤ c && c ≤ 'f' then some (c.toNat - 87)
  else if 'A' ≤ c && c ≤ 'F' then some (c.toNat - 55)
  else none

/-- Body of a JSON string after the opening quote: returns the decoded
content and the remainder after the closing quote. -/
def parseStringBody : Nat → List Char → Option (List Char × List Char)
  | 0, _ => none
  | _, [] => none
  | fu + 1, c :: rest =>
    if c = '\"' then some ([], rest)
    else if c = '\\' then
      match rest with
      | [] => none
      | e :: rest2 =>
        if e = '\"' then (parseStringBody fu rest2).map fun p => ('\"' :: p.1, p.2)
        else if e = '\\' then (parseStringBody fu rest2).map fun p => ('\\' :: p.1, p.2)
        else if e = '/' then (parseStringBody fu rest2).map fun p => ('/' :: p.1, p.2)
        else if e = 'n' then (parseStringBody fu rest2).map fun p => ('\n' :: p.1, p.2)
        else if e = 't' then (parseStringBody fu rest2).map fun p => ('\t' :: p.1, p.2)
        else if e = 'r' then (parseStringBody fu rest2).map fun p => ('\r' :: p.1, p.2)
        else if e = 'b' then
          (parseStringBody fu rest2).map fun p => (Char.ofNat 8 :: p.1, p.2)
        else if e = 'f' then
          (parseStringBody fu rest2).map fun p => (Char.ofNat 12 :: p.1, p.2)
        else if e = 'u' then
          match rest2 with
          | h1 :: h2 :: h3 :: h4 :: rest3 =>
            match hexDigitVal h1, hexDigitVal h2, hexDigitVal h3, hexDigitVal h4 with
            | some a, some b, some c2, some d =>
              (parseStringBody fu rest3).map fun p =>
                (Char.ofNat (((a * 16 + b) * 16 + c2) * 16 + d) :: p.1, p.2)
            | _, _, _, _ => none
          | _ => none
        else none
    else (parseStringBody fu rest).map fun p => (c :: p.1, p.2)

def natOfDigits (ds : List Char) : Nat :=
  ds.foldl (fun a c => a * 10 + (c.toNat - 48)) 0

mutual

/-- One JSON value (fuel-indexed; every recursive call consumes input). -/
def parseValue : Nat → List Char → Option (Json × List Char)
  | 0, _ => none
  | fu + 1, s =>
    match skipJsonWs s with
    | [] => none
    | c :: rest =>
      if c = lbrace then
        match skipJsonWs rest with
        | [] => none
        | d :: r2 =>
          if d = rbrace then some (Json.jobj [], r2)
          else (parseFields fu (d :: r2)).map fun p => (Json.jobj p.1, p.2)
      else if c = '[' then
        match skipJsonWs rest with
        | [] => none
        | d :: r2 =>
          if d = ']' then some (Json.jarr [], r2)
          else (parseElems fu (d :: r2)).map fun p => (Json.jarr p.1, p.2)
      else if c = '\"' then
        (parseStringBody (fu + 1) rest).map fun p => (Json.jstr p.1, p.2)
      else if c = 't' then
        match rest with
        | 'r' :: 'u' :: 'e' :: r => some (Json.jbool true, r)
        | _ => none
      else if c = 'f' then
        match rest with
        | 'a' :: 'l' :: 's' :: 'e' :: r => some (Json.jbool false, r)
        | _ => none
      else if c = 'n' then
        match rest with
        | 'u' :: 'l' :: 'l' :: r => some (Json.null, r)
        | _ => none
      else if c = '-' then
        let ds := rest.takeWhile Char.isDigit
        if ds = [] then none
        else some (Json.jnum (-(Int.ofNat (natOfDigits ds))), rest.drop ds.length)
      else if c.isDigit then
        let ds := (c :: rest).takeWhile Char.isDigit
        some (Json.jnum (Int.ofNat (natOfDigits ds)), (c :: rest).drop ds.length)
      else none

/-- Object members, positioned at the start of a member (after `{` and any
whitespace, or after a `,`). -/
def parseFields : Nat → List Char → Option (List (List Char × Json) × List Char)
  | 0, _ => none
  | fu + 1, s =>
    match skipJsonWs s with
    | '\"' :: rest =>
      match parseStringBody (fu + 1) rest with
      | none => none
      | some (k, r1) =>
        match skipJsonWs r1 with
        | ':' :: r2 =>
          match parseValue fu r2 with
          | none => none
          | some (v, r3) =>
            match skipJsonWs r3 with
            | ',' :: r4 => (parseFields fu r4).map fun p => ((k, v) :: p.1, p.2)
            | c :: r4 => if c = rbrace then some ([(k, v)], r4) else none
            | [] => none
        | _ => none
    | _ => none

/-- Array elements, positioned at the start of an element. -/
def parseElems : Nat → List Char → Option (List Json × List Char)
  | 0, _ => none
  | fu + 1, s =>
    match parseValue fu s with
    | none => none
    | some (v, r1) =>
      match skipJsonWs r1 with
      | ',' :: r2 => (parseElems fu r2).map fun p => (v :: p.1, p.2)
      | c :: r2 => if c = ']' then some ([v], r2) else none
      | [] => none

end

/-- The model of `JSON.parse`: the whole input must be one JSON value. -/
def jsonParse (s : List Char) : Option Json :=
  match parseValue (s.length + 1) s with
  | some (v, rest) => if skipJsonWs rest = [] then some v else none
  | none => none

/-- Property access `v[key]` on a parsed value; JSON.parse keeps the last of
duplicate keys, so lookup prefers the rightmost occurrence. -/
def lookupLast : List (List Char × Json) → List Char → Option Json
  | [], _ => none
  | (k, x) :: rest, key =>
    match lookupLast rest key with
    | some y => some y
    | none => if k = key then some x else none

def objGet (v : Json) (key : List Char) : Option Json :=
  match v with
  | Json.jobj fields => lookupLast fields key
  | _ => none

/-- JavaScript truthiness of a parsed JSON value (`undefined` is modelled by
the lookup returning `none`, handled at use sites via `Option.getD Json.null`). -/
def truthy : Json → Bool
  | Json.null => false
  | Json.jbool b => b
  | Json.jnum n => decide (n ≠ 0)
  | Json.jstr s => decide (s ≠ [])
  | Json.jarr _ => true
  | Json.jobj _ => true

/-! ## Frontend: `extractJsonData` (MessageBubble.jsx lines 16-49)

The component matches, with the `i` flag, first
`BT BT BT (?:json)? \s* ( LB [\s\S]*? "KEY": [\s\S]*? RB ) \s* BT BT BT`
(`BT` the backtick, `LB`/`RB` the braces) and, as a fallback,
`( LB "KEY": \s* [ [\s\S]*? ] \s* RB )`.
The embedding implements the observable behaviour of these regexes under the
JS engine: leftmost starting position; the lazy quantifiers stop at the first
end position from which the rest of the pattern matches (the `\s*` before a
required literal is deterministic because no whitespace character begins the
literal).  Case-insensitivity affects only the letter literals (`json`, the
key); braces, quotes and backticks are fixed by `toLower`. -/

def chEqCI (a b : Char) : Bool := a.toLower = b.toLower

/-- Case-insensitive literal-prefix test (pattern first). -/
def isPrefixCI : List Char → List Char → Bool
  | [], _ => true
  | _ :: _, [] => false
  | p :: ps, t :: ts => chEqCI p t && isPrefixCI ps ts

/-- Split at the leftmost case-insensitive occurrence of `pat`:
`some (bef, occ, aft)` with `input = bef ++ occ ++ aft`, where `occ` is the
matched text (`pat.length` characters). -/
def splitFirstCI (pat : List Char) : List Char → Option (List Char × List Char × List Char)
  | [] => if isPrefixCI pat [] then some ([], [], []) else none
  | c :: rest =>
    if isPrefixCI pat (c :: rest) then
      some ([], (c :: rest).take pat.length, (c :: rest).drop pat.length)
    else (splitFirstCI pat rest).map fun p => (c :: p.1, p.2.1, p.2.2)

/-- The three-backtick fence. -/
def fenceLit : List Char := [btick, btick, btick]

/-- The literal `json` after an opening fence. -/
def jsonLit : List Char := ['j', 's', 'o', 'n']

/-- The literal `"KEY":`. -/
def quoteKeyColon (key : List Char) : List Char := '\"' :: (key ++ ['\"', ':'])

/-- The literal `"KEY"`. -/
def quoteKey (key : List Char) : List Char := '\"' :: (key ++ ['\"'])

/-- Lazy search for the close of the fenced group: the first `RB` from which
`\s* BT BT BT` matches.  Returns `(groupTail, wsRun, afterFence)`: the
consumed characters up to and including that `RB`, the whitespace run, and
the remainder after the closing fence. -/
def findCloseFence : List Char → Option (List Char × List Char × List Char)
  | [] => none
  | c :: rest =>
    if c = rbrace then
      if fenceLit.isPrefixOf (rest.dropWhile isJsWsChar) then
        some ([c], rest.takeWhile isJsWsChar, (rest.dropWhile isJsWsChar).drop 3)
      else (findCloseFence rest).map fun p => (c :: p.1, p.2.1, p.2.2)
    else (findCloseFence rest).map fun p => (c :: p.1, p.2.1, p.2.2)

/-- The code-block regex tried at one starting position.  Returns
`(fullMatch, capturedGroup)` on success. -/
def tryFenceAt (key : List Char) (s : List Char) : Option (List Char × List Char) :=
  if fenceLit.isPrefixOf s then
    let s1 := s.drop 3
    let jTxt := if isPrefixCI jsonLit s1 then s1.take 4 else []
    let s2 := s1.drop jTxt.length
    let wTxt := s2.takeWhile isJsWsChar
    match s2.dropWhile isJsWsChar with
    | [] => none
    | c :: s4 =>
      if c = lbrace then
        match splitFirstCI (quoteKeyColon key) s4 with
        | none => none
        | some (bef, occ, aft) =>
          match findCloseFence aft with
          | none => none
          | some (gTail, wsRun, _) =>
            let group := lbrace :: (bef ++ occ ++ gTail)
            some (fenceLit ++ jTxt ++ wTxt ++ group ++ wsRun ++ fenceLit, group)
      else none
  else none

/-- Lazy search for the close of the raw group: the first `]` from which
`\s* RB` matches.  Returns `(tail, after)` where `tail` runs through the
closing `RB`. -/
def findCloseBrace : List Char → Option (List Char × List Char)
  | [] => none
  | c :: rest =>
    if c = ']' then
      match rest.dropWhile isJsWsChar with
      | d :: rest3 =>
        if d = rbrace then some (c :: (rest.takeWhile isJsWsChar ++ [d]), rest3)
        else (findCloseBrace rest).map fun p => (c :: p.1, p.2)
      | [] => (findCloseBrace rest).map fun p => (c :: p.1, p.2)
    else (findCloseBrace rest).map fun p => (c :: p.1, p.2)

/-- The raw-JSON fallback regex tried at one starting position; here
`match[0] = match[1]`, so full match and group coincide. -/
def tryRawAt (key : List Char) (s : List Char) : Option (List Char × List Char) :=
  match s with
  | [] => none
  | c :: s1 =>
    if c = lbrace then
      if isPrefixCI (quoteKeyColon key) s1 then
        let occ := s1.take (quoteKeyColon key).length
        let s2 := s1.drop (quoteKeyColon key).length
        let wTxt := s2.takeWhile isJsWsChar
        match s2.dropWhile isJsWsChar with
        | d :: s4 =>
          if d = '[' then
            match findCloseBrace s4 with
            | some (tail, _) =>
              let group := c :: (occ ++ wTxt ++ d :: tail)
              some (group, group)
            | none => none
          else none
        | [] => none
      else none
    else none

/-- Leftmost match: try the matcher at every starting position, left to
right. -/
def findFirstMatch (m : List Char → Option (List Char × List Char)) :
    List Char → Option (List Char × List Char)
  | [] => m []
  | c :: rest =>
    match m (c :: rest) with
    | some r => some r
    | none => findFirstMatch m rest

/-- The function `extractJsonData(text, key)` of MessageBubble.jsx: try the fenced code
block first; on regex failure, JSON.parse failure, or a falsy `parsed[key]`,
fall back to the raw-JSON regex; return the payload and the full matched
text. -/
def extractJsonData (text key : List Char) : Option (Json × List Char) :=
  let raw :=
    match findFirstMatch (tryRawAt key) text with
    | some (full, group) =>
      match jsonParse group with
      | some v =>
        match objGet v key with
        | some d => if truthy d then some (d, full) else none
        | none => none
      | none => none
    | none => none
  match findFirstMatch (tryFenceAt key) text with
  | some (full, group) =>
    match jsonParse group with
    | some v =>
      match objGet v key with
      | some d => if truthy d then some (d, full) else raw
      | none => raw
    | none => raw
  | none => raw

/-! ## Frontend: MessageBubble rendering (lines 51-101) -/

/-- JS `String.prototype.replace` with a string pattern: replace the first
occurrence by the empty string. -/
def replaceFirst (pat : List Char) : List Char → List Char
  | [] => []
  | c :: rest =>
    if pat.isPrefixOf (c :: rest) then (c :: rest).drop pat.length
    else c :: replaceFirst pat rest

/-- JS `String.prototype.trim` (ASCII whitespace). -/
def trimJs (s : List Char) : List Char :=
  ((s.dropWhile isJsWsChar).reverse.dropWhile isJsWsChar).reverse

def tendersKey : List Char := ['t', 'e', 'n', 'd', 'e', 'r', 's']

def eventsKey : List Char := ['e', 'v', 'e', 'n', 't', 's']

/-- What a bot `MessageBubble` renders: the markdown text, and the data passed
to the `TenderCard` component.  The JSX references only `displayText` and
`tenderData`; the extracted `eventData` is bound but never rendered (there is
no events card component), which is why the view has no events field. -/
structure BubbleView where
  displayText : List Char
  tenderCards : Option Json

/-- The bot branch of `MessageBubble`: extract tenders from the message text,
strip and trim; then extract events from the already-stripped display text,
strip and trim; render the remaining text and the tender cards. -/
def renderBubble (text : List Char) : BubbleView :=
  let tr := extractJsonData text tendersKey
  let display1 :=
    match tr with
    | some (_, full) => trimJs (replaceFirst full text)
    | none => text
  let er := extractJsonData display1 eventsKey
  let display2 :=
    match er with
    | some (_, full) => trimJs (replaceFirst full display1)
    | none => display1
  ⟨display2, tr.map fun p => p.1⟩

/-! ## Frontend: `sendMessageToAPI` (api.js) and `handleSend` (ChatContainer.jsx) -/

/-- Outcome of the `fetch` call: a network failure (fetch rejects), or a
response with an HTTP status and the result of parsing its body as JSON
(`none` when `response.json()` would reject). -/
inductive FetchResult where
  | networkFailure : FetchResult
  | response (status : Nat) (body : Option Json) : FetchResult

/-- JS `Response.ok`: status in the inclusive range 200-299. -/
def responseOk (status : Nat) : Bool := decide (200 ≤ status) && decide (status < 300)

/-- JS `String(v)` as used inside the error template literal.  The claims only
exercise string details; array stringification (comma-joining) is outside the
modelled fragment. -/
def jsStringOf : Json → List Char
  | Json.jstr s => s
  | Json.jnum n => (toString n).data
  | Json.jbool b => (if b then "true" else "false").data
  | Json.null => "null".data
  | Json.jarr _ => []
  | Json.jobj _ => "[object Object]".data

def noAnswerText : List Char := "No answer provided.".data

def failDetailText : List Char := "Failed to get response".data

/-- The function `sendMessageToAPI`: on a non-ok response, read `errorData.detail` (body
parse failure yields `\x7b\x7d`) and throw
`API Error (STATUS): DETAIL-or-fallback`; on an ok response whose body fails
to parse, the `response.json()` rejection propagates; otherwise resolve to
`data.answer || "No answer provided."`. -/
def sendMessageToAPI : FetchResult → Except (List Char) Json
  | FetchResult.networkFailure => Except.error ("Failed to fetch".data)
  | FetchResult.response status body =>
    if responseOk status then
      match body with
      | none => Except.error ("Unexpected end of JSON input".data)
      | some data =>
        let ans := (objGet data ("answer".data)).getD Json.null
        if truthy ans then Except.ok ans else Except.ok (Json.jstr noAnswerText)
    else
      let errData := body.getD (Json.jobj [])
      let d := (objGet errData ("detail".data)).getD Json.null
      let detail := if truthy d then jsStringOf d else failDetailText
      Except.error
        (("API Error (".data) ++ (toString status).data ++ ("): ".data) ++ detail)

/-- The user-visible bot message text: `Sorry, I couldn`&#39;`t get a response.
Please try again.` (ChatContainer.jsx catch branch). -/
def genericRetryText : List Char :=
  "Sorry, I couldn".data ++ [apos] ++ "t get a response. Please try again.".data

/-- The handler `handleSend` in ChatContainer.jsx: append the resolved answer as the bot
message, or — for every rejection, API error and network failure alike — the
generic retry text; the technical detail goes only to `console.error`. -/
def handleSendBotText (res : FetchResult) : Json :=
  match sendMessageToAPI res with
  | Except.ok a => a
  | Except.error _ => Json.jstr genericRetryText

/-- Case-insensitive substring test (used to state that a text does or does
not contain a payload key / a detail string). -/
def containsCI (pat : List Char) : List Char → Bool
  | [] => isPrefixCI pat []
  | c :: rest => isPrefixCI pat (c :: rest) || containsCI pat rest

/-- A bot answer containing a raw events payload and no tenders payload
(`Events: ` then the object `\x7b"events": [1]\x7d` then ` done`). -/
def c7CexText : List Char :=
  "Events: ".data ++ lbrace :: ("\"events\": [1]".data ++ rbrace :: " done".data)

/-! ## Helper lemmas: retention engine -/

theorem planned_of_protected {rs : RuleSet} {f : ManagedFile}
    (hf : f.path = rs.protectedName) (files : List ManagedFile) (now : Nat) :
    plannedForDeletion files rs now f = false := by
  unfold plannedForDeletion eligibleMode
  rw [if_pos hf]

theorem mem_plan_iff {files : List ManagedFile} {rs : RuleSet} {now : Nat}
    {f : ManagedFile} {r : String} :
    (f, r) ∈ plan files rs now ↔
      f ∈ files ∧ plannedForDeletion files rs now f = true ∧ r = reasonFor rs f := by
  unfold plan
  simp only [List.mem_map, List.mem_filter, Prod.mk.injEq]
  constructor
  · rintro ⟨a, ⟨ha, hp⟩, rfl, rfl⟩
    exact ⟨ha, hp, rfl⟩
  · rintro ⟨ha, hp, rfl⟩
    exact ⟨f, ⟨ha, hp⟩, rfl, rfl⟩

theorem exec_no_protected_delete {rs : RuleSet} {f : ManagedFile}
    (hf : f.path = rs.protectedName) :
    ∀ (p : List (ManagedFile × String)) (files : List ManagedFile)
      (rep : List (ManagedFile × String)),
      (f, "deleted") ∉ rep → (f, "deleted") ∉ (p.foldl (execStep rs) (files, rep)).2
  | [], _, _, hrep => hrep
  | e :: p, files, rep, hrep => by
    rw [List.foldl_cons]
    unfold execStep
    by_cases hp : e.1.path = rs.protectedName
    · rw [if_pos hp]
      refine exec_no_protected_delete hf p _ _ ?_
      simp only [List.mem_append, List.mem_singleton, Prod.mk.injEq]
      rintro (h | ⟨-, h⟩)
      · exact hrep h
      · exact absurd h (by simp)
    · rw [if_neg hp]
      by_cases hc : e.1 ∈ files
      · rw [if_pos hc]
        refine exec_no_protected_delete hf p _ _ ?_
        simp only [List.mem_append, List.mem_singleton, Prod.mk.injEq]
        rintro (h | ⟨h1, -⟩)
        · exact hrep h
        · exact hp (h1 ▸ hf)
      · rw [if_neg hc]
        refine exec_no_protected_delete hf p _ _ ?_
        simp only [List.mem_append, List.mem_singleton, Prod.mk.injEq]
        rintro (h | ⟨-, h⟩)
        · exact hrep h
        · exact absurd h (by simp)

theorem laterThan_iff {g f : ManagedFile} :
    laterThan g f = true ↔
      f.timestamp < g.timestamp ∨ (f.timestamp = g.timestamp ∧ f.path < g.path) := by
  simp [laterThan]

theorem laterThan_irrefl (f : ManagedFile) : laterThan f f = false := by
  simp [laterThan]

theorem laterThan_asymm {g f : ManagedFile} (h : laterThan g f = true) :
    laterThan f g = false := by
  rw [← Bool.not_eq_true, laterThan_iff]
  push_neg
  rcases laterThan_iff.1 h with h1 | ⟨h1, h2⟩
  · exact ⟨by omega, fun he => absurd (he.trans_lt h1) (lt_irrefl _)⟩
  · exact ⟨by omega, fun _ => lt_asymm h2⟩

theorem laterThan_trans {a b c : ManagedFile} (h1 : laterThan a b = true)
    (h2 : laterThan b c = true) : laterThan a c = true := by
  rw [laterThan_iff] at h1 h2 ⊢
  rcases h1 with h1 | ⟨h1, h1'⟩ <;> rcases h2 with h2 | ⟨h2, h2'⟩
  · exact Or.inl (by omega)
  · exact Or.inl (by omega)
  · exact Or.inl (by omega)
  · exact Or.inr ⟨by omega, lt_trans h2' h1'⟩

theorem laterThan_total {f g : ManagedFile} (hne : f.path ≠ g.path) :
    laterThan f g = true ∨ laterThan g f = true := by
  rw [laterThan_iff, laterThan_iff]
  rcases lt_trichotomy f.timestamp g.timestamp with h | h | h
  · exact Or.inr (Or.inl h)
  · rcases lt_trichotomy f.path g.path with h' | h' | h'
    · exact Or.inr (Or.inr ⟨h, h'⟩)
    · exact absurd h' hne
    · exact Or.inl (Or.inr ⟨h.symm, h'⟩)
  · exact Or.inl (Or.inl h)

/-- Every nonempty list of files with pairwise-distinct paths has a strict
maximum in the retention order. -/
theorem exists_retention_max :
    ∀ (S : List ManagedFile), S ≠ [] →
      (∀ a ∈ S, ∀ b ∈ S, a.path = b.path → a = b) →
      ∃ m ∈ S, ∀ g ∈ S, g ≠ m → laterThan m g = true
  | [], h, _ => absurd rfl h
  | [f], _, _ => ⟨f, List.mem_singleton_self f, by
      intro g hg hne
      rw [List.mem_singleton] at hg
      exact absurd hg hne⟩
  | f :: g0 :: rest, _, hinj => by
    obtain ⟨m, hm, hmax⟩ :=
      exists_retention_max (g0 :: rest) (by simp)
        (fun a ha b hb => hinj a (List.mem_cons_of_mem f ha) b (List.mem_cons_of_mem f hb))
    by_cases hlt : laterThan m f = true
    · refine ⟨m, List.mem_cons_of_mem f hm, ?_⟩
      intro g hg hne
      rcases List.mem_cons.1 hg with rfl | hg
      · exact hlt
      · exact hmax g hg hne
    · by_cases hfm : f = m
      · refine ⟨m, List.mem_cons_of_mem f hm, ?_⟩
        intro g hg hne
        rcases List.mem_cons.1 hg with rfl | hg
        · exact absurd hfm hne
        · exact hmax g hg hne
      · have hpath : f.path ≠ m.path := fun h =>
          hfm (hinj f (List.mem_cons_self f _) m (List.mem_cons_of_mem f hm) h)
        have hfbeatm : laterThan f m = true := by
          rcases laterThan_total hpath with h | h
          · exact h
          · exact absurd h hlt
        refine ⟨f, List.mem_cons_self f _, ?_⟩
        intro g hg hne
        rcases List.mem_cons.1 hg with rfl | hg
        · exact absurd rfl hne
        · by_cases hgm : g = m
          · exact hgm ▸ hfbeatm
          · exact laterThan_trans hfbeatm (hmax g hg hgm)

theorem countP_congr_mem {α : Type} {l : List α} {p q : α → Bool}
    (h : ∀ a ∈ l, p a = q a) : l.countP p = l.countP q := by
  induction l with
  | nil => rfl
  | cons a l ih =>
    rw [List.countP_cons, List.countP_cons, h a (by simp),
      ih fun x hx => h x (by simp [hx])]

theorem countP_not_eq_length_sub {α : Type} (p : α → Bool) (l : List α) :
    l.countP (fun a => !p a) = l.length - l.countP p := by
  induction l with
  | nil => rfl
  | cons a l ih =>
    have hle : l.countP p ≤ l.length := List.countP_le_length p
    rw [List.countP_cons, List.countP_cons, List.length_cons, ih]
    cases h : p a
    · simp [h]
      omega
    · simp [h]

theorem plan_map_fst (files : List ManagedFile) (rs : RuleSet) (now : Nat) :
    (plan files rs now).map Prod.fst = files.filter (plannedForDeletion files rs now) := by
  rw [plan]
  induction files.filter (plannedForDeletion files rs now) with
  | nil => rfl
  | cons a l ih => simp only [List.map_cons, ih]

theorem plan_entry_not_protected {files : List ManagedFile} {rs : RuleSet}
    {now : Nat} {e : ManagedFile × String} (he : e ∈ plan files rs now) :
    e.1.path ≠ rs.protectedName := by
  obtain ⟨f, r⟩ := e
  rcases mem_plan_iff.1 he with ⟨-, hp, -⟩
  intro hpath
  rw [planned_of_protected hpath] at hp
  exact Bool.false_ne_true hp

theorem exec_state_eq_diff (rs : RuleSet) :
    ∀ (p : List (ManagedFile × String)), (∀ e ∈ p, e.1.path ≠ rs.protectedName) →
      ∀ (files : List ManagedFile) (rep : List (ManagedFile × String)),
        (p.foldl (execStep rs) (files, rep)).1 = files.diff (p.map Prod.fst)
  | [], _, files, rep => by simp
  | e :: p, hp, files, rep => by
    rw [List.foldl_cons, List.map_cons, List.diff_cons]
    have hne : e.1.path ≠ rs.protectedName := hp e (List.mem_cons_self e _)
    unfold execStep
    rw [if_neg hne]
    by_cases hc : e.1 ∈ files
    · rw [if_pos hc]
      exact exec_state_eq_diff rs p (fun x hx => hp x (List.mem_cons_of_mem e hx)) _ _
    · rw [if_neg hc, List.erase_of_not_mem hc]
      exact exec_state_eq_diff rs p (fun x hx => hp x (List.mem_cons_of_mem e hx)) _ _

/-- C6: planning, executing the whole plan, and planning again (same rules,
same clock, no other filesystem change) yields the empty plan. -/
theorem c6_idempotent (files : List ManagedFile) (rs : RuleSet) (now : Nat)
    (hnd : files.Nodup) :
    plan ((execute rs files (plan files rs now)).1) rs now = [] := by
  have hnp : ∀ e ∈ plan files rs now, e.1.path ≠ rs.protectedName :=
    fun e he => plan_entry_not_protected he
  have hstate : (execute rs files (plan files rs now)).1 =
      files.diff (files.filter (plannedForDeletion files rs now)) := by
    rw [execute, exec_state_eq_diff rs _ hnp, plan_map_fst]
  have hmem : ∀ f ∈ (execute rs files (plan files rs now)).1,
      f ∈ files ∧ plannedForDeletion files rs now f = false := by
    intro f hf
    rw [hstate, hnd.mem_diff_iff] at hf
    refine ⟨hf.1, ?_⟩
    cases hpl : plannedForDeletion files rs now f
    · rfl
    · exact absurd (List.mem_filter.2 ⟨hf.1, hpl⟩) hf.2
  rw [plan, List.map_eq_nil_iff, List.filter_eq_nil_iff]
  intro f hf hp
  obtain ⟨hffiles, hfalse⟩ := hmem f hf
  cases hm : eligibleMode rs f with
  | none =>
    simp only [plannedForDeletion, hm] at hp
    exact Bool.false_ne_true hp
  | some mode =>
    cases mode with
    | keepLatest1 =>
      simp only [plannedForDeletion, hm, List.any_eq_true] at hp hfalse
      obtain ⟨g, hg, hgp⟩ := hp
      have hgfiles : g ∈ files := (hmem g hg).1
      rw [← Bool.not_eq_true, List.any_eq_true] at hfalse
      exact hfalse ⟨g, hgfiles, hgp⟩
    | keepWithinDuration d =>
      simp only [plannedForDeletion, hm] at hp hfalse
      rw [hfalse] at hp
      exact Bool.false_ne_true hp

/-- C6 witness: two files in one keep-latest-1 category. -/
theorem c6_idempotent_witness :
    ([⟨"a.json", "news", 1⟩, ⟨"b.json", "news", 2⟩] : List ManagedFile).Nodup ∧
    plan ((execute ⟨[("news", RetentionMode.keepLatest1)], "contacts.pdf"⟩
        [⟨"a.json", "news", 1⟩, ⟨"b.json", "news", 2⟩]
        (plan [⟨"a.json", "news", 1⟩, ⟨"b.json", "news", 2⟩]
          ⟨[("news", RetentionMode.keepLatest1)], "contacts.pdf"⟩ 0)).1)
      ⟨[("news", RetentionMode.keepLatest1)], "contacts.pdf"⟩ 0 = [] :=
  ⟨by decide,
    c6_idempotent [⟨"a.json", "news", 1⟩, ⟨"b.json", "news", 2⟩]
      ⟨[("news", RetentionMode.keepLatest1)], "contacts.pdf"⟩ 0 (by decide)⟩

theorem planned_keepLatest_iff {files : List ManagedFile} {rs : RuleSet}
    {now : Nat} {c : String} {f : ManagedFile}
    (hrule : lookupRule rs.rules c = some RetentionMode.keepLatest1)
    (hprot : ∀ g ∈ files, g.category = c → g.path ≠ rs.protectedName)
    (hfc : f.category = c) (hfp : f.path ≠ rs.protectedName) :
    (plannedForDeletion files rs now f = true ↔
      ∃ g ∈ files.filter (fun g => decide (g.category = c)), laterThan g f = true) := by
  unfold plannedForDeletion eligibleMode
  rw [if_neg hfp, hfc, hrule, List.any_eq_true]
  constructor
  · rintro ⟨g, hg, hcond⟩
    simp only [Bool.and_eq_true, decide_eq_true_eq] at hcond
    exact ⟨g, List.mem_filter.2 ⟨hg, by simp [hcond.1.1, hfc]⟩, hcond.2⟩
  · rintro ⟨g, hg, hlater⟩
    rw [List.mem_filter, decide_eq_true_eq] at hg
    refine ⟨g, hg.1, ?_⟩
    simp [hg.2, hfc, hprot g hg.1 hg.2, hlater]

/-- C1: in a directory whose category-`c` group (a `keep-latest-1` category
with no protected-name collision) has N ≥ 1 files, the plan marks exactly
N - 1 of them, and the unmarked one is the strict maximum by timestamp, ties
broken by lexicographic filename order. -/
theorem c1_keep_latest (files : List ManagedFile) (rs : RuleSet) (now : Nat)
    (c : String) (hnd : (files.map fun f => f.path).Nodup)
    (hrule : lookupRule rs.rules c = some RetentionMode.keepLatest1)
    (hprot : ∀ f ∈ files, f.category = c → f.path ≠ rs.protectedName)
    (hne : files.filter (fun f => decide (f.category = c)) ≠ []) :
    ((plan files rs now).countP fun e => decide (e.1.category = c)) =
      (files.filter fun f => decide (f.category = c)).length - 1 ∧
    ∃ m ∈ files.filter (fun f => decide (f.category = c)),
      (∀ r, (m, r) ∉ plan files rs now) ∧
      ∀ g ∈ files.filter (fun f => decide (f.category = c)),
        g ≠ m → laterThan m g = true ∧ (g, reasonFor rs g) ∈ plan files rs now := by
  have hinj : ∀ a ∈ files, ∀ b ∈ files, a.path = b.path → a = b :=
    fun a ha b hb h => List.inj_on_of_nodup_map hnd ha hb h
  have hinjS : ∀ a ∈ files.filter (fun f => decide (f.category = c)),
      ∀ b ∈ files.filter (fun f => decide (f.category = c)), a.path = b.path → a = b :=
    fun a ha b hb => hinj a (List.mem_of_mem_filter ha) b (List.mem_of_mem_filter hb)
  obtain ⟨m, hmS, hmax⟩ :=
    exists_retention_max (files.filter fun f => decide (f.category = c)) hne hinjS
  have hplanned : ∀ f ∈ files.filter (fun f => decide (f.category = c)),
      plannedForDeletion files rs now f = !decide (f = m) := by
    intro f hfS
    have hfc : f.category = c := by
      have := (List.mem_filter.1 hfS).2
      rwa [decide_eq_true_eq] at this
    have hfp : f.path ≠ rs.protectedName := hprot f (List.mem_of_mem_filter hfS) hfc
    have hiff := @planned_keepLatest_iff files rs now c f hrule hprot hfc hfp
    by_cases hfm : f = m
    · subst hfm
      have hno : ¬ ∃ g ∈ files.filter (fun g => decide (g.category = c)),
          laterThan g f = true := by
        rintro ⟨g, hgS, hl⟩
        have hgne : g ≠ f := by
          rintro rfl
          rw [laterThan_irrefl] at hl
          exact Bool.false_ne_true hl
        rw [laterThan_asymm (hmax g hgS hgne)] at hl
        exact Bool.false_ne_true hl
      have hnp : plannedForDeletion files rs now f = false := by
        rw [← Bool.not_eq_true, hiff]
        exact hno
      rw [hnp]
      simp
    · rw [hiff.2 ⟨m, hmS, hmax f hfS hfm⟩]
      simp [hfm]
  have hSnodup : (files.filter fun f => decide (f.category = c)).Nodup :=
    (List.Nodup.of_map _ hnd).filter _
  constructor
  · have h1 : ((plan files rs now).countP fun e => decide (e.1.category = c)) =
        (files.filter (plannedForDeletion files rs now)).countP
          fun f => decide (f.category = c) := by
      rw [plan, List.countP_map]
      exact countP_congr_mem fun a _ => rfl
    have hpoint : ∀ f ∈ files,
        (decide (f.category = c) && plannedForDeletion files rs now f) =
          ((!decide (f = m)) && decide (f.category = c)) := by
      intro f hf
      by_cases hfc : f.category = c
      · have hfS : f ∈ files.filter (fun f => decide (f.category = c)) :=
          List.mem_filter.2 ⟨hf, by simp [hfc]⟩
        rw [hplanned f hfS]
        simp [hfc]
      · simp [hfc]
    rw [h1, List.countP_filter, countP_congr_mem hpoint, ← List.countP_filter]
    have h2 : (files.filter fun f => decide (f.category = c)).countP
        (fun f => !decide (f = m)) =
        (files.filter fun f => decide (f.category = c)).length -
          (files.filter fun f => decide (f.category = c)).countP
            fun f => decide (f = m) := by
      exact countP_not_eq_length_sub _ _
    rw [h2]
    have h3 : (files.filter fun f => decide (f.category = c)).countP
        (fun f => decide (f = m)) = 1 := by
      have hcount := List.count_eq_one_of_mem hSnodup hmS
      rw [← hcount, List.count_eq_countP]
      exact countP_congr_mem fun a _ => by by_cases h : a = m <;> simp [h]
    rw [h3]
  · refine ⟨m, hmS, ?_, ?_⟩
    · intro r hmem
      rcases mem_plan_iff.1 hmem with ⟨-, hp, -⟩
      rw [hplanned m hmS] at hp
      simp at hp
    · intro g hgS hgm
      refine ⟨hmax g hgS hgm, ?_⟩
      rw [mem_plan_iff]
      exact ⟨List.mem_of_mem_filter hgS, by rw [hplanned g hgS]; simp [hgm], rfl⟩

/-- C1 witness: two news scrapes; the later one is kept. -/
theorem c1_keep_latest_witness :
    (([⟨"scraped_news_1.json", "news", 1⟩, ⟨"scraped_news_3.json", "news", 3⟩] :
        List ManagedFile).map fun f => f.path).Nodup ∧
    (((plan [⟨"scraped_news_1.json", "news", 1⟩, ⟨"scraped_news_3.json", "news", 3⟩]
        ⟨[("news", RetentionMode.keepLatest1)], "contacts.pdf"⟩ 0).countP
          fun e => decide (e.1.category = "news")) =
      (([⟨"scraped_news_1.json", "news", 1⟩, ⟨"scraped_news_3.json", "news", 3⟩] :
          List ManagedFile).filter fun f => decide (f.category = "news")).length - 1 ∧
    ∃ m ∈ ([⟨"scraped_news_1.json", "news", 1⟩, ⟨"scraped_news_3.json", "news", 3⟩] :
        List ManagedFile).filter (fun f => decide (f.category = "news")),
      (∀ r, (m, r) ∉ plan [⟨"scraped_news_1.json", "news", 1⟩, ⟨"scraped_news_3.json", "news", 3⟩]
          ⟨[("news", RetentionMode.keepLatest1)], "contacts.pdf"⟩ 0) ∧
      ∀ g ∈ ([⟨"scraped_news_1.json", "news", 1⟩, ⟨"scraped_news_3.json", "news", 3⟩] :
          List ManagedFile).filter (fun f => decide (f.category = "news")),
        g ≠ m → laterThan m g = true ∧
          (g, reasonFor ⟨[("news", RetentionMode.keepLatest1)], "contacts.pdf"⟩ g) ∈
            plan [⟨"scraped_news_1.json", "news", 1⟩, ⟨"scraped_news_3.json", "news", 3⟩]
              ⟨[("news", RetentionMode.keepLatest1)], "contacts.pdf"⟩ 0) :=
  ⟨by decide,
    c1_keep_latest [⟨"scraped_news_1.json", "news", 1⟩, ⟨"scraped_news_3.json", "news", 3⟩]
      ⟨[("news", RetentionMode.keepLatest1)], "contacts.pdf"⟩ 0 ("news")
      (by decide) (by decide) (by decide) (by decide)⟩

/-! ## Claim theorems: pipeline orchestrator -/

/-- C3: the claim says cleanup-stage failures are non-fatal (the pipeline
continues past a `cleanup-pre` failure and still exits 0 after a
`cleanup-post` failure), and the script's own log strings ("continuing
anyway", "non-critical") say the same — but `set -e` on line 5 terminates the
script at the failing cleanup command before its `if [ $? -eq 0 ]` check can
run: a failing STEP 1 cleanup stops the run before any scraper, and a failing
STEP 5 cleanup makes the whole run exit 1. -/
theorem c3_cleanup_failure_is_fatal :
    (runPipeline envCleanupPreFails).executed = [Stage.cleanupPre] ∧
    Stage.scrapeStaff ∉ (runPipeline envCleanupPreFails).executed ∧
    (runPipeline envCleanupPreFails).exitCode = 1 ∧
    (runPipeline envCleanupPostFails).exitCode = 1 := by
  decide

/-- C4: if any scrape sub-stage would exit nonzero, the run never executes the
process or upload stages and terminates with a nonzero exit code. -/
theorem c4_fail_fast_scrape (env : StageCodes)
    (h : env.scrapeStaff ≠ 0 ∨ env.scrapeNews ≠ 0 ∨ env.scrapeEquipment ≠ 0 ∨
      env.scrapeTenders ≠ 0 ∨ env.scrapeEvents ≠ 0) :
    Stage.processData ∉ (runPipeline env).executed ∧
    Stage.uploadPinecone ∉ (runPipeline env).executed ∧
    (runPipeline env).exitCode ≠ 0 := by
  rcases env with ⟨a1, a2, a3, a4, a5, a6, a7, a8, a9⟩
  by_cases h1 : a1 = 0 <;> by_cases h2 : a2 = 0 <;> by_cases h3 : a3 = 0 <;>
    by_cases h4 : a4 = 0 <;> by_cases h5 : a5 = 0 <;> by_cases h6 : a6 = 0 <;>
    simp_all [runPipeline, pipelineScript, runCmds, exitCodeOf]

/-- C4 witness: a run whose news scraper fails. -/
theorem c4_fail_fast_scrape_witness :
    ((⟨0, 0, 1, 0, 0, 0, 0, 0, 0⟩ : StageCodes).scrapeNews ≠ 0 ∨
        (⟨0, 0, 1, 0, 0, 0, 0, 0, 0⟩ : StageCodes).scrapeNews ≠ 1) ∧
    (Stage.processData ∉ (runPipeline ⟨0, 0, 1, 0, 0, 0, 0, 0, 0⟩).executed ∧
      Stage.uploadPinecone ∉ (runPipeline ⟨0, 0, 1, 0, 0, 0, 0, 0, 0⟩).executed ∧
      (runPipeline ⟨0, 0, 1, 0, 0, 0, 0, 0, 0⟩).exitCode ≠ 0) :=
  ⟨by decide,
    c4_fail_fast_scrape ⟨0, 0, 1, 0, 0, 0, 0, 0, 0⟩ (Or.inr (Or.inl (by decide)))⟩

/-! ## Claim theorems: protected file and log window -/

/-- C2: the protected file is never an element of any deletion plan, and never
appears as a deleted entry in any execution report (the janitor re-checks the
protection flag at execution time, so this holds for arbitrary plans, not only
those produced by `plan`). -/
theorem c2_protected_invariant (files : List ManagedFile) (rs : RuleSet)
    (now : Nat) (f : ManagedFile) (r : String) (p : List (ManagedFile × String))
    (hf : f.path = rs.protectedName) :
    (f, r) ∉ plan files rs now ∧ (f, "deleted") ∉ (execute rs files p).2 := by
  constructor
  · intro hmem
    rcases mem_plan_iff.1 hmem with ⟨-, hp, -⟩
    rw [planned_of_protected hf] at hp
    exact Bool.false_ne_true hp
  · exact exec_no_protected_delete hf p files [] (by simp)

/-- C2 witness: an aged `contacts.pdf` colliding with the `pdf` category. -/
theorem c2_protected_invariant_witness :
    (ManagedFile.mk "contacts.pdf" "pdf" 0).path =
        (RuleSet.mk [("pdf", RetentionMode.keepLatest1)] ("contacts.pdf")).protectedName ∧
    ((⟨"contacts.pdf", "pdf", 0⟩, "r") ∉
        plan [⟨"contacts.pdf", "pdf", 0⟩, ⟨"new.pdf", "pdf", 5⟩]
          ⟨[("pdf", RetentionMode.keepLatest1)], "contacts.pdf"⟩ 100 ∧
      (⟨"contacts.pdf", "pdf", 0⟩, "deleted") ∉
        (execute ⟨[("pdf", RetentionMode.keepLatest1)], "contacts.pdf"⟩
          [⟨"contacts.pdf", "pdf", 0⟩, ⟨"new.pdf", "pdf", 5⟩]
          [(⟨"contacts.pdf", "pdf", 0⟩, "stale")]).2) :=
  ⟨rfl,
    c2_protected_invariant [⟨"contacts.pdf", "pdf", 0⟩, ⟨"new.pdf", "pdf", 5⟩]
      ⟨[("pdf", RetentionMode.keepLatest1)], "contacts.pdf"⟩ 100
      ⟨"contacts.pdf", "pdf", 0⟩ "r" [(⟨"contacts.pdf", "pdf", 0⟩, "stale")] rfl⟩

/-- C5: a log-category file (rule `keep-within-duration` seven days) is in the
plan exactly when its timestamp is older than `now` minus seven days,
independently of how many other files exist. -/
theorem c5_log_window (files : List ManagedFile) (rs : RuleSet) (now : Nat)
    (f : ManagedFile) (hf : f ∈ files)
    (hrule : lookupRule rs.rules f.category =
      some (RetentionMode.keepWithinDuration sevenDays))
    (hprot : f.path ≠ rs.protectedName) :
    ((f, reasonFor rs f) ∈ plan files rs now ↔ f.timestamp + sevenDays < now) := by
  rw [mem_plan_iff]
  unfold plannedForDeletion eligibleMode
  rw [if_neg hprot, hrule]
  simp [hf]

/-- C5 witness: an eight-day-old log is planned; `0 + sevenDays < now` holds. -/
theorem c5_log_window_witness :
    ((⟨"old.log", "log", 0⟩, reasonFor ⟨[("log", RetentionMode.keepWithinDuration sevenDays)], "contacts.pdf"⟩ ⟨"old.log", "log", 0⟩) ∈
        plan [⟨"old.log", "log", 0⟩]
          ⟨[("log", RetentionMode.keepWithinDuration sevenDays)], "contacts.pdf"⟩
          (8 * 24 * 60 * 60) ↔
      (0 : Nat) + sevenDays < 8 * 24 * 60 * 60) :=
  c5_log_window [⟨"old.log", "log", 0⟩]
    ⟨[("log", RetentionMode.keepWithinDuration sevenDays)], "contacts.pdf"⟩
    (8 * 24 * 60 * 60) ⟨"old.log", "log", 0⟩ (by simp) (by decide) (by decide)

/-! ## Helper lemmas: string matching -/

theorem isPrefixCI_append {pat t : List Char} (u : List Char)
    (h : isPrefixCI pat t = true) : isPrefixCI pat (t ++ u) = true := by
  induction pat generalizing t with
  | nil => rfl
  | cons p ps ih =>
    cases t with
    | nil => exact absurd h (by simp [isPrefixCI])
    | cons c t =>
      rw [isPrefixCI, Bool.and_eq_true] at h
      rw [List.cons_append, isPrefixCI, Bool.and_eq_true]
      exact ⟨h.1, ih h.2⟩

theorem isPrefixCI_self_append (pat u : List Char) :
    isPrefixCI pat (pat ++ u) = true := by
  induction pat with
  | nil => rfl
  | cons p ps ih =>
    rw [List.cons_append, isPrefixCI, Bool.and_eq_true]
    exact ⟨by simp [chEqCI], ih⟩

theorem isPrefixCI_of_append_left {p q t : List Char}
    (h : isPrefixCI (p ++ q) t = true) : isPrefixCI p t = true := by
  induction p generalizing t with
  | nil => rfl
  | cons a p ih =>
    cases t with
    | nil => exact absurd h (by simp [isPrefixCI])
    | cons c t =>
      rw [List.cons_append, isPrefixCI, Bool.and_eq_true] at h
      rw [isPrefixCI, Bool.and_eq_true]
      exact ⟨h.1, ih h.2⟩

theorem containsCI_of_isPrefixCI {pat t : List Char}
    (h : isPrefixCI pat t = true) : containsCI pat t = true := by
  cases t <;> simp [containsCI, h]

theorem containsCI_cons_of {pat : List Char} (c : Char) {t : List Char}
    (h : containsCI pat t = true) : containsCI pat (c :: t) = true := by
  simp [containsCI, h]

theorem containsCI_of_suffix {pat t s : List Char} (hsuf : t <:+ s)
    (h : containsCI pat t = true) : containsCI pat s = true := by
  obtain ⟨u, rfl⟩ := hsuf
  induction u with
  | nil => exact h
  | cons c u ih => exact containsCI_cons_of c ih

theorem containsCI_mono_pattern {p q s : List Char}
    (h : containsCI (p ++ q) s = true) : containsCI p s = true := by
  induction s with
  | nil => exact containsCI_of_isPrefixCI (isPrefixCI_of_append_left h)
  | cons c s ih =>
    rw [containsCI, Bool.or_eq_true] at h
    rcases h with h | h
    · exact containsCI_of_isPrefixCI (isPrefixCI_of_append_left h)
    · exact containsCI_cons_of c (ih h)

theorem containsCI_of_splitFirstCI {pat s : List Char}
    (h : splitFirstCI pat s ≠ none) : containsCI pat s = true := by
  induction s with
  | nil =>
    by_cases hp : isPrefixCI pat [] = true
    · simp [containsCI, hp]
    · rw [splitFirstCI, if_neg hp] at h
      exact absurd rfl h
  | cons c s ih =>
    by_cases hp : isPrefixCI pat (c :: s) = true
    · simp [containsCI, hp]
    · rw [splitFirstCI, if_neg hp] at h
      rw [containsCI, Bool.or_eq_true]
      refine Or.inr (ih ?_)
      intro hn
      rw [hn] at h
      exact h rfl

theorem suffix_of_dropWhile (p : Char → Bool) (l : List Char) :
    l.dropWhile p <:+ l := by
  induction l with
  | nil => exact List.suffix_rfl
  | cons c l ih =>
    rw [List.dropWhile_cons]
    by_cases h : p c = true
    · rw [if_pos h]
      exact ih.trans (List.suffix_cons c l)
    · rw [if_neg h]

theorem containsCI_of_tryFenceAt {key s : List Char} {r}
    (h : tryFenceAt key s = some r) :
    containsCI (quoteKeyColon key) s = true := by
  rw [tryFenceAt] at h
  split at h
  case isTrue hf =>
    simp only [] at h
    split at h
    · exact absurd h (by simp)
    case h_2 c s4 hdw =>
      split at h
      case isTrue hc =>
        split at h
        · exact absurd h (by simp)
        case h_2 bef occ aft hsp =>
          have hcont : containsCI (quoteKeyColon key) s4 = true :=
            containsCI_of_splitFirstCI (by rw [hsp]; simp)
          have hs4 : s4 <:+ s := by
            have h1 : c :: s4 <:+ s := by
              rw [← hdw]
              exact (suffix_of_dropWhile _ _).trans
                ((List.drop_suffix _ _).trans (List.drop_suffix _ _))
            exact (List.suffix_cons c s4).trans h1
          exact containsCI_of_suffix hs4 hcont
      case isFalse hc => exact absurd h (by simp)
  case isFalse hf => exact absurd h (by simp)

theorem containsCI_of_tryRawAt {key s : List Char} {r}
    (h : tryRawAt key s = some r) :
    containsCI (quoteKeyColon key) s = true := by
  rcases s with _ | ⟨c, s1⟩
  · exact absurd h (by simp [tryRawAt])
  · rw [tryRawAt] at h
    by_cases hc : c = lbrace
    · rw [if_pos hc] at h
      by_cases hp : isPrefixCI (quoteKeyColon key) s1 = true
      · exact containsCI_cons_of c (containsCI_of_isPrefixCI hp)
      · rw [if_neg hp] at h
        exact absurd h (by simp)
    · rw [if_neg hc] at h
      exact absurd h (by simp)

theorem findFirstMatch_some_suffix {m : List Char → Option (List Char × List Char)}
    {s : List Char} {r} (h : findFirstMatch m s = some r) :
    ∃ t, t <:+ s ∧ m t = some r := by
  induction s with
  | nil => exact ⟨[], List.suffix_rfl, h⟩
  | cons c s ih =>
    rw [findFirstMatch] at h
    cases hm : m (c :: s) with
    | some r' =>
      rw [hm] at h
      exact ⟨c :: s, List.suffix_rfl, hm.trans h⟩
    | none =>
      rw [hm] at h
      obtain ⟨t, hsuf, hmt⟩ := ih h
      exact ⟨t, hsuf.trans (List.suffix_cons c s), hmt⟩

/-- If the text nowhere contains `"KEY"` (case-insensitively), neither regex
matches and `extractJsonData` returns null. -/
theorem extract_none_of_no_key {key s : List Char}
    (h : containsCI (quoteKey key) s = false) :
    extractJsonData s key = none := by
  have hq : quoteKeyColon key = quoteKey key ++ [':'] := by
    simp [quoteKeyColon, quoteKey]
  have hnc : ∀ t, t <:+ s → containsCI (quoteKeyColon key) t = true → False := by
    intro t hsuf hc
    have := containsCI_of_suffix hsuf hc
    rw [hq] at this
    rw [containsCI_mono_pattern this] at h
    exact absurd h (by simp)
  have hfence : findFirstMatch (tryFenceAt key) s = none := by
    cases hf : findFirstMatch (tryFenceAt key) s with
    | none => rfl
    | some r =>
      obtain ⟨t, hsuf, hmt⟩ := findFirstMatch_some_suffix hf
      exact absurd (hnc t hsuf (containsCI_of_tryFenceAt hmt)) not_false
  have hraw : findFirstMatch (tryRawAt key) s = none := by
    cases hf : findFirstMatch (tryRawAt key) s with
    | none => rfl
    | some r =>
      obtain ⟨t, hsuf, hmt⟩ := findFirstMatch_some_suffix hf
      exact absurd (hnc t hsuf (containsCI_of_tryRawAt hmt)) not_false
  rw [extractJsonData, hfence, hraw]

theorem isPrefixCI_no_straddle {pat : List Char} {r0 : Char} {R : List Char} :
    ∀ (u : List Char), isPrefixCI pat (u ++ r0 :: R) = true →
      (∀ p ∈ pat, chEqCI p r0 = false) → pat.length ≤ u.length := by
  induction pat with
  | nil => simp
  | cons p ps ih =>
    intro u h hr0
    cases u with
    | nil =>
      rw [List.nil_append, isPrefixCI, Bool.and_eq_true] at h
      rw [hr0 p (by simp)] at h
      exact absurd h.1 (by simp)
    | cons a u =>
      rw [List.cons_append, isPrefixCI, Bool.and_eq_true] at h
      have := ih u h.2 fun q hq => hr0 q (by simp [hq])
      simp only [List.length_cons]
      omega

theorem splitFirstCI_stays {pat : List Char} (hpat : pat ≠ []) (r0 : Char)
    (R : List Char) (hr0 : ∀ p ∈ pat, chEqCI p r0 = false) :
    ∀ {mid : List Char}, containsCI pat mid = true →
      ∃ bef occ aftMid, mid = bef ++ occ ++ aftMid ∧
        splitFirstCI pat (mid ++ r0 :: R) = some (bef, occ, aftMid ++ r0 :: R) := by
  intro mid
  induction mid with
  | nil =>
    intro hocc
    rw [containsCI] at hocc
    cases pat with
    | nil => exact absurd rfl hpat
    | cons p ps => simp [isPrefixCI] at hocc
  | cons c mid' ih =>
    intro hocc
    by_cases hp : isPrefixCI pat (c :: (mid' ++ r0 :: R)) = true
    · have hlen : pat.length ≤ (c :: mid').length :=
        isPrefixCI_no_straddle (c :: mid') (by rwa [List.cons_append]) hr0
      refine ⟨[], (c :: mid').take pat.length, (c :: mid').drop pat.length, ?_, ?_⟩
      · rw [List.nil_append, List.take_append_drop]
      · rw [List.cons_append, splitFirstCI, if_pos hp,
          show c :: (mid' ++ r0 :: R) = (c :: mid') ++ r0 :: R from rfl,
          List.take_append_of_le_length hlen, List.drop_append_of_le_length hlen]
    · rw [containsCI, Bool.or_eq_true] at hocc
      rcases hocc with hocc | hocc
      · have := isPrefixCI_append (r0 :: R) hocc
        rw [List.cons_append] at this
        exact absurd this hp
      · obtain ⟨bef, occ, aftMid, hmid, hsp⟩ := ih hocc
        refine ⟨c :: bef, occ, aftMid, by rw [hmid]; rfl, ?_⟩
        rw [List.cons_append, splitFirstCI, if_neg hp, hsp]
        rfl

theorem takeWhile_append_all {p : Char → Bool} {xs : List Char} (ys : List Char)
    (h : ∀ c ∈ xs, p c = true) :
    (xs ++ ys).takeWhile p = xs ++ ys.takeWhile p := by
  induction xs with
  | nil => rfl
  | cons c xs ih =>
    rw [List.cons_append, List.takeWhile_cons, h c (by simp),
      ih fun x hx => h x (by simp [hx])]
    rfl

theorem dropWhile_append_all {p : Char → Bool} {xs : List Char} (ys : List Char)
    (h : ∀ c ∈ xs, p c = true) :
    (xs ++ ys).dropWhile p = ys.dropWhile p := by
  induction xs with
  | nil => rfl
  | cons c xs ih =>
    rw [List.cons_append, List.dropWhile_cons, h c (by simp)]
    exact (if_pos rfl).trans (ih fun x hx => h x (by simp [hx]))

theorem dropWhile_head_ne (xs : List Char) (y : Char) (ys : List Char)
    (hxs : ∀ c ∈ xs, c ≠ btick) (hy : y ≠ btick) (hyw : isJsWsChar y = false) :
    ∃ d ds, (xs ++ y :: ys).dropWhile isJsWsChar = d :: ds ∧ d ≠ btick := by
  induction xs with
  | nil =>
    refine ⟨y, ys, ?_, hy⟩
    rw [List.nil_append, List.dropWhile_cons, hyw]
    rfl
  | cons c xs ih =>
    rw [List.cons_append, List.dropWhile_cons]
    by_cases hc : isJsWsChar c = true
    · rw [hc, if_pos rfl]
      exact ih fun x hx => hxs x (by simp [hx])
    · rw [Bool.not_eq_true] at hc
      rw [hc, if_neg (by simp)]
      exact ⟨c, _, rfl, hxs c (by simp)⟩

theorem isPrefixOf_append_self (p r : List Char) : p.isPrefixOf (p ++ r) = true := by
  induction p with
  | nil => simp [List.isPrefixOf]
  | cons c p ih => simp [List.cons_append, List.isPrefixOf, ih]

theorem fence_isPrefixOf_cons_ne {d : Char} (ds : List Char) (hd : d ≠ btick) :
    fenceLit.isPrefixOf (d :: ds) = false := by
  have hb : (btick == d) = false := beq_eq_false_iff_ne.2 (Ne.symm hd)
  simp [fenceLit, List.isPrefixOf, hb]

theorem findCloseFence_cons (c : Char) (rest : List Char) :
    findCloseFence (c :: rest) =
      (if c = rbrace then
        if fenceLit.isPrefixOf (rest.dropWhile isJsWsChar) then
          some ([c], rest.takeWhile isJsWsChar, (rest.dropWhile isJsWsChar).drop 3)
        else (findCloseFence rest).map fun p => (c :: p.1, p.2.1, p.2.2)
      else (findCloseFence rest).map fun p => (c :: p.1, p.2.1, p.2.2)) := rfl

theorem findCloseFence_boundary {aftMid : List Char} (post : List Char)
    (hnb : ∀ c ∈ aftMid, c ≠ btick) :
    findCloseFence (aftMid ++ rbrace :: '\n' :: (fenceLit ++ post)) =
      some (aftMid ++ [rbrace], ['\n'], post) := by
  induction aftMid with
  | nil =>
    rw [List.nil_append, findCloseFence_cons, if_pos rfl]
    have hdw : ('\n' :: (fenceLit ++ post)).dropWhile isJsWsChar = fenceLit ++ post := by
      rw [List.dropWhile_cons, show isJsWsChar '\n' = true from rfl, if_pos rfl,
        show fenceLit ++ post = btick :: (btick :: btick :: post) from rfl,
        List.dropWhile_cons, show isJsWsChar btick = false from rfl]
      rfl
    have htw : ('\n' :: (fenceLit ++ post)).takeWhile isJsWsChar = ['\n'] := by
      rw [List.takeWhile_cons, show isJsWsChar '\n' = true from rfl,
        show fenceLit ++ post = btick :: (btick :: btick :: post) from rfl,
        List.takeWhile_cons, show isJsWsChar btick = false from rfl]
      rfl
    rw [hdw, htw, if_pos (isPrefixOf_append_self fenceLit post),
      show (fenceLit ++ post).drop 3 = post from rfl, List.nil_append]
  | cons c aft' ih =>
    rw [List.cons_append, findCloseFence_cons]
    have hstep : (findCloseFence (aft' ++ rbrace :: '\n' :: (fenceLit ++ post))).map
        (fun p => (c :: p.1, p.2.1, p.2.2)) =
        some ((c :: aft') ++ [rbrace], ['\n'], post) := by
      rw [ih fun x hx => hnb x (by simp [hx])]
      rfl
    by_cases hc : c = rbrace
    · rw [if_pos hc]
      obtain ⟨d, ds, hdw, hd⟩ := dropWhile_head_ne aft' rbrace ('\n' :: (fenceLit ++ post))
        (fun x hx => hnb x (by simp [hx])) (by decide) rfl
      rw [hdw, fence_isPrefixOf_cons_ne ds hd, if_neg (by simp)]
      exact hstep
    · rw [if_neg hc]
      exact hstep

theorem tryFenceAt_boundary (key mid post : List Char)
    (hocc : containsCI (quoteKeyColon key) mid = true)
    (hkeyR : ∀ p ∈ quoteKeyColon key, chEqCI p rbrace = false)
    (hmidb : ∀ c ∈ mid, c ≠ btick) :
    tryFenceAt key
        (fenceLit ++ jsonLit ++ '\n' :: lbrace :: (mid ++ rbrace :: '\n' :: (fenceLit ++ post))) =
      some (fenceLit ++ jsonLit ++ '\n' :: lbrace :: (mid ++ rbrace :: '\n' :: fenceLit),
            lbrace :: (mid ++ [rbrace])) := by
  have hpat : quoteKeyColon key ≠ [] := by simp [quoteKeyColon]
  obtain ⟨bef, occ, aftMid, hmid, hsp⟩ :=
    splitFirstCI_stays hpat rbrace ('\n' :: (fenceLit ++ post)) hkeyR hocc
  have haft : ∀ c ∈ aftMid, c ≠ btick := fun c hc =>
    hmidb c (by rw [hmid]; simp [hc])
  have hclose := findCloseFence_boundary post haft
  have hred : tryFenceAt key
      (fenceLit ++ jsonLit ++ '\n' :: lbrace :: (mid ++ rbrace :: '\n' :: (fenceLit ++ post))) =
      (match splitFirstCI (quoteKeyColon key) (mid ++ rbrace :: '\n' :: (fenceLit ++ post)) with
       | none => none
       | some (bef, occ, aft) =>
         match findCloseFence aft with
         | none => none
         | some (gTail, wsRun, _) =>
           some (fenceLit ++ jsonLit ++ ['\n'] ++ (lbrace :: (bef ++ occ ++ gTail)) ++
               wsRun ++ fenceLit,
             lbrace :: (bef ++ occ ++ gTail))) := rfl
  rw [hred]
  simp only [hsp, hclose]
  have hgroup : bef ++ occ ++ (aftMid ++ [rbrace]) = mid ++ [rbrace] := by
    rw [hmid]
    simp [List.append_assoc]
  rw [hgroup]
  have hfull : fenceLit ++ jsonLit ++ ['\n'] ++ (lbrace :: (mid ++ [rbrace])) ++
      ['\n'] ++ fenceLit =
      fenceLit ++ jsonLit ++ '\n' :: lbrace :: (mid ++ rbrace :: '\n' :: fenceLit) := by
    simp [List.append_assoc]
  rw [hfull]

theorem tryFenceAt_cons_ne {key : List Char} {c : Char} (s : List Char)
    (hc : c ≠ btick) : tryFenceAt key (c :: s) = none := by
  rw [tryFenceAt, fence_isPrefixOf_cons_ne s hc, if_neg (by simp)]

theorem findFirstMatch_append_none {m : List Char → Option (List Char × List Char)}
    {pre : List Char} (rest : List Char)
    (h : ∀ c ∈ pre, ∀ t : List Char, m (c :: t) = none) :
    findFirstMatch m (pre ++ rest) = findFirstMatch m rest := by
  induction pre with
  | nil => rfl
  | cons c pre ih =>
    rw [List.cons_append, findFirstMatch, h c (by simp)]
    exact ih fun x hx t => h x (by simp [hx]) t

theorem findFirstMatch_of_some {m : List Char → Option (List Char × List Char)}
    {s : List Char} {r} (h : m s = some r) : findFirstMatch m s = some r := by
  cases s with
  | nil => exact h
  | cons c t => rw [findFirstMatch, h]

/-- Extraction over a fenced ```json block: the leftmost fence is the real one
(the preceding prose has no backtick), the lazy group capture is exactly the
embedded object, and the full match is the whole fenced block. -/
theorem extract_fenced (key pre mid post : List Char) (j d : Json)
    (hpre : ∀ c ∈ pre, c ≠ btick)
    (hmidb : ∀ c ∈ mid, c ≠ btick)
    (hocc : containsCI (quoteKeyColon key) mid = true)
    (hkeyR : ∀ p ∈ quoteKeyColon key, chEqCI p rbrace = false)
    (hparse : jsonParse (lbrace :: (mid ++ [rbrace])) = some j)
    (hget : objGet j key = some d) (htruthy : truthy d = true) :
    extractJsonData
        (pre ++ (fenceLit ++ jsonLit ++ '\n' :: lbrace :: (mid ++ rbrace :: '\n' :: (fenceLit ++ post))))
        key =
      some (d, fenceLit ++ jsonLit ++ '\n' :: lbrace :: (mid ++ rbrace :: '\n' :: fenceLit)) := by
  have hb := tryFenceAt_boundary key mid post hocc hkeyR hmidb
  have hfence : findFirstMatch (tryFenceAt key)
      (pre ++ (fenceLit ++ jsonLit ++ '\n' :: lbrace :: (mid ++ rbrace :: '\n' :: (fenceLit ++ post)))) =
      some (fenceLit ++ jsonLit ++ '\n' :: lbrace :: (mid ++ rbrace :: '\n' :: fenceLit),
            lbrace :: (mid ++ [rbrace])) := by
    rw [findFirstMatch_append_none _ fun c hc t => @tryFenceAt_cons_ne key c t (hpre c hc)]
    exact findFirstMatch_of_some hb
  rw [extractJsonData]
  simp only [hfence, hparse, hget, htruthy, if_true]

theorem findCloseBrace_cons (c : Char) (rest : List Char) :
    findCloseBrace (c :: rest) =
      (if c = ']' then
        match rest.dropWhile isJsWsChar with
        | d :: rest3 =>
          if d = rbrace then some (c :: (rest.takeWhile isJsWsChar ++ [d]), rest3)
          else (findCloseBrace rest).map fun p => (c :: p.1, p.2)
        | [] => (findCloseBrace rest).map fun p => (c :: p.1, p.2)
      else (findCloseBrace rest).map fun p => (c :: p.1, p.2)) := rfl

theorem findCloseBrace_boundary {mid : List Char} (ws2 post : List Char)
    (hmid : ∀ c ∈ mid, c ≠ ']')
    (hws2 : ∀ c ∈ ws2, isJsWsChar c = true) :
    findCloseBrace (mid ++ ']' :: (ws2 ++ rbrace :: post)) =
      some (mid ++ ']' :: (ws2 ++ [rbrace]), post) := by
  induction mid with
  | nil =>
    rw [List.nil_append, findCloseBrace_cons, if_pos rfl,
      dropWhile_append_all _ hws2, List.dropWhile_cons,
      show isJsWsChar rbrace = false from rfl]
    simp only [Bool.false_eq_true, if_false, if_pos rfl,
      takeWhile_append_all _ hws2, List.takeWhile_cons,
      show isJsWsChar rbrace = false from rfl]
    simp
  | cons c mid' ih =>
    rw [List.cons_append, findCloseBrace_cons, if_neg (hmid c (by simp)),
      ih fun x hx => hmid x (by simp [hx])]
    rfl

theorem tryRawAt_cons (key : List Char) (c : Char) (s1 : List Char) :
    tryRawAt key (c :: s1) =
      (if c = lbrace then
        if isPrefixCI (quoteKeyColon key) s1 = true then
          match (s1.drop (quoteKeyColon key).length).dropWhile isJsWsChar with
          | d :: s4 =>
            if d = '[' then
              match findCloseBrace s4 with
              | some (tail, _) =>
                some (c :: (s1.take (quoteKeyColon key).length ++
                    (s1.drop (quoteKeyColon key).length).takeWhile isJsWsChar ++ d :: tail),
                  c :: (s1.take (quoteKeyColon key).length ++
                    (s1.drop (quoteKeyColon key).length).takeWhile isJsWsChar ++ d :: tail))
              | none => none
            else none
          | [] => none
        else none
      else none) := rfl

theorem tryRawAt_boundary (key ws1 mid ws2 post : List Char)
    (hws1 : ∀ c ∈ ws1, isJsWsChar c = true)
    (hws2 : ∀ c ∈ ws2, isJsWsChar c = true)
    (hmid : ∀ c ∈ mid, c ≠ ']') :
    tryRawAt key
        (lbrace :: (quoteKeyColon key ++ (ws1 ++ '[' :: (mid ++ ']' :: (ws2 ++ rbrace :: post))))) =
      some (lbrace :: (quoteKeyColon key ++ (ws1 ++ '[' :: (mid ++ ']' :: (ws2 ++ [rbrace])))),
        lbrace :: (quoteKeyColon key ++ (ws1 ++ '[' :: (mid ++ ']' :: (ws2 ++ [rbrace]))))) := by
  rw [tryRawAt_cons, if_pos rfl,
    if_pos (isPrefixCI_self_append (quoteKeyColon key) _),
    List.drop_left, List.take_left,
    dropWhile_append_all _ hws1, List.dropWhile_cons,
    show isJsWsChar '[' = false from rfl]
  simp only [Bool.false_eq_true, if_false, if_pos rfl,
    takeWhile_append_all _ hws1, List.takeWhile_cons,
    show isJsWsChar '[' = false from rfl,
    findCloseBrace_boundary ws2 post hmid hws2]
  simp [List.append_assoc]

theorem tryRawAt_cons_ne {key : List Char} {c : Char} (s : List Char)
    (hc : c ≠ lbrace) : tryRawAt key (c :: s) = none := by
  rw [tryRawAt_cons, if_neg hc]

theorem findFence_none_no_btick (key : List Char) {s : List Char}
    (h : ∀ c ∈ s, c ≠ btick) :
    findFirstMatch (tryFenceAt key) s = none := by
  induction s with
  | nil => rfl
  | cons c rest ih =>
    rw [findFirstMatch, tryFenceAt_cons_ne rest (h c (by simp))]
    exact ih fun x hx => h x (by simp [hx])

theorem findRaw_none_no_lbrace (key : List Char) {s : List Char}
    (h : ∀ c ∈ s, c ≠ lbrace) :
    findFirstMatch (tryRawAt key) s = none := by
  induction s with
  | nil => rfl
  | cons c rest ih =>
    rw [findFirstMatch, tryRawAt_cons_ne rest (h c (by simp))]
    exact ih fun x hx => h x (by simp [hx])

/-- A text with no backtick and no left brace matches neither regex. -/
theorem extract_none_no_special (key : List Char) {s : List Char}
    (hb : ∀ c ∈ s, c ≠ btick) (hl : ∀ c ∈ s, c ≠ lbrace) :
    extractJsonData s key = none := by
  rw [extractJsonData, findFence_none_no_btick key hb, findRaw_none_no_lbrace key hl]

/-- Extraction of a raw (unfenced) JSON payload, when the text has no fenced
block (no backtick anywhere) and the prose before the payload has no brace. -/
theorem extract_raw (key pre ws1 mid ws2 post : List Char) (j d : Json)
    (hpreL : ∀ c ∈ pre, c ≠ lbrace)
    (hbt : ∀ c ∈ pre ++ (lbrace :: (quoteKeyColon key ++
        (ws1 ++ '[' :: (mid ++ ']' :: (ws2 ++ rbrace :: post))))), c ≠ btick)
    (hws1 : ∀ c ∈ ws1, isJsWsChar c = true)
    (hws2 : ∀ c ∈ ws2, isJsWsChar c = true)
    (hmid : ∀ c ∈ mid, c ≠ ']')
    (hparse : jsonParse (lbrace :: (quoteKeyColon key ++
        (ws1 ++ '[' :: (mid ++ ']' :: (ws2 ++ [rbrace]))))) = some j)
    (hget : objGet j key = some d) (htruthy : truthy d = true) :
    extractJsonData (pre ++ (lbrace :: (quoteKeyColon key ++
        (ws1 ++ '[' :: (mid ++ ']' :: (ws2 ++ rbrace :: post)))))) key =
      some (d, lbrace :: (quoteKeyColon key ++
        (ws1 ++ '[' :: (mid ++ ']' :: (ws2 ++ [rbrace]))))) := by
  have hraw : findFirstMatch (tryRawAt key)
      (pre ++ (lbrace :: (quoteKeyColon key ++
        (ws1 ++ '[' :: (mid ++ ']' :: (ws2 ++ rbrace :: post)))))) =
      some (lbrace :: (quoteKeyColon key ++ (ws1 ++ '[' :: (mid ++ ']' :: (ws2 ++ [rbrace])))),
        lbrace :: (quoteKeyColon key ++ (ws1 ++ '[' :: (mid ++ ']' :: (ws2 ++ [rbrace]))))) := by
    rw [findFirstMatch_append_none _ fun c hc t => @tryRawAt_cons_ne key c t (hpreL c hc)]
    exact findFirstMatch_of_some (tryRawAt_boundary key ws1 mid ws2 post hws1 hws2 hmid)
  rw [extractJsonData, findFence_none_no_btick key hbt, hraw]
  simp only [hparse, hget, htruthy, if_true]

theorem replaceFirst_cons (pat : List Char) (c : Char) (rest : List Char) :
    replaceFirst pat (c :: rest) =
      (if pat.isPrefixOf (c :: rest) then (c :: rest).drop pat.length
       else c :: replaceFirst pat rest) := rfl

theorem replaceFirst_append (pat pre post : List Char) (p0 : Char)
    (hhead : pat.head? = some p0) (hpre : ∀ c ∈ pre, c ≠ p0) :
    replaceFirst pat (pre ++ (pat ++ post)) = pre ++ post := by
  induction pre with
  | nil =>
    cases pat with
    | nil => exact absurd hhead (by simp)
    | cons q tail =>
      rw [List.nil_append, List.cons_append, replaceFirst_cons,
        if_pos (by rw [← List.cons_append]; exact isPrefixOf_append_self (q :: tail) post),
        show q :: (tail ++ post) = (q :: tail) ++ post from rfl, List.drop_left,
        List.nil_append]
  | cons c pre' ih =>
    rw [List.cons_append, replaceFirst_cons]
    have hb : pat.isPrefixOf (c :: (pre' ++ (pat ++ post))) = false := by
      cases pat with
      | nil => exact absurd hhead (by simp)
      | cons q tail =>
        have hq : q = p0 := by simpa using hhead
        have : (q == c) = false :=
          beq_eq_false_iff_ne.2 (hq ▸ Ne.symm (hpre c (by simp)))
        simp [List.isPrefixOf, this]
    rw [hb, if_neg (by simp), ih fun x hx => hpre x (by simp [hx])]
    rfl

theorem mem_of_mem_trimJs {c : Char} {s : List Char} (h : c ∈ trimJs s) : c ∈ s := by
  unfold trimJs at h
  rw [List.mem_reverse] at h
  have h2 := (List.dropWhile_sublist _).subset h
  rw [List.mem_reverse] at h2
  exact (List.dropWhile_sublist _).subset h2

/-! ## Claim theorems: chat API error handling -/

/-- C8 counterexample: a 500 response with `detail: "boom"` — the bot message
shown to the user is the generic retry text and does not contain the detail,
so the claim that the frontend surfaces the detail to the user is false. -/
theorem c8_detail_not_surfaced :
    handleSendBotText
        (FetchResult.response 500 (some (Json.jobj [("detail".data, Json.jstr ("boom".data))]))) =
      Json.jstr genericRetryText ∧
    containsCI ("boom".data) genericRetryText = false :=
  ⟨rfl, by decide⟩

/-- C8 (amended): on a non-2xx response with a nonempty string `detail`, the
thrown error (visible only in the developer console) carries the detail, while
the user-visible bot message is the generic retry text; a network failure also
yields the generic retry text as a bot message. -/
theorem c8_error_generic_retry (status : Nat) (detail : List Char)
    (hok : responseOk status = false) (hd : detail ≠ []) :
    sendMessageToAPI
        (FetchResult.response status (some (Json.jobj [("detail".data, Json.jstr detail)]))) =
      Except.error
        ((("API Error (".data) ++ (toString status).data ++ ("): ".data)) ++ detail) ∧
    handleSendBotText
        (FetchResult.response status (some (Json.jobj [("detail".data, Json.jstr detail)]))) =
      Json.jstr genericRetryText ∧
    handleSendBotText FetchResult.networkFailure = Json.jstr genericRetryText := by
  have hsend : sendMessageToAPI
      (FetchResult.response status (some (Json.jobj [("detail".data, Json.jstr detail)]))) =
      Except.error
        ((("API Error (".data) ++ (toString status).data ++ ("): ".data)) ++ detail) := by
    simp only [sendMessageToAPI]
    rw [if_neg (by simp [hok])]
    simp [objGet, lookupLast, truthy, jsStringOf, hd]
  exact ⟨hsend, by unfold handleSendBotText; rw [hsend], rfl⟩

/-- C8 witness for the amended statement. -/
theorem c8_error_generic_retry_witness :
    responseOk 500 = false ∧ ("boom".data ≠ ([] : List Char)) ∧
    (sendMessageToAPI
        (FetchResult.response 500 (some (Json.jobj [("detail".data, Json.jstr ("boom".data))]))) =
      Except.error
        ((("API Error (".data) ++ (toString (500 : Nat)).data ++ ("): ".data)) ++ "boom".data) ∧
    handleSendBotText
        (FetchResult.response 500 (some (Json.jobj [("detail".data, Json.jstr ("boom".data))]))) =
      Json.jstr genericRetryText ∧
    handleSendBotText FetchResult.networkFailure = Json.jstr genericRetryText) :=
  ⟨by decide, by decide, c8_error_generic_retry 500 ("boom".data) (by decide) (by decide)⟩

/-- C9: a 2xx response whose parsed body has no truthy `answer` field resolves
to the literal string "No answer provided." rather than failing. -/
theorem c9_missing_answer (status : Nat) (fields : List (List Char × Json))
    (hok : responseOk status = true)
    (hmiss : truthy ((objGet (Json.jobj fields) ("answer".data)).getD Json.null) = false) :
    sendMessageToAPI (FetchResult.response status (some (Json.jobj fields))) =
      Except.ok (Json.jstr noAnswerText) := by
  simp only [sendMessageToAPI]
  rw [if_pos (by simp [hok])]
  simp [hmiss]

/-- C9 witness: a 200 response whose body is the empty object. -/
theorem c9_missing_answer_witness :
    responseOk 200 = true ∧
    truthy ((objGet (Json.jobj []) ("answer".data)).getD Json.null) = false ∧
    sendMessageToAPI (FetchResult.response 200 (some (Json.jobj []))) =
      Except.ok (Json.jstr noAnswerText) :=
  ⟨by decide, rfl, c9_missing_answer 200 [] (by decide) rfl⟩

/-! ## Claim theorems: message rendering -/

/-- C7 counterexample: `c7CexText` contains no JSON object with key `tenders`,
yet the displayed text is not the answer text (the raw events payload was
stripped), so the claim as stated fails; no tender data is extracted. -/
theorem c7_claim_counterexample :
    containsCI (quoteKey tendersKey) c7CexText = false ∧
    (renderBubble c7CexText).tenderCards = none ∧
    (renderBubble c7CexText).displayText ≠ c7CexText :=
  ⟨by decide, rfl, by decide⟩

/-- C7 (amended): (a) a bot text containing neither a `"tenders"` nor an
`"events"` key renders unchanged with no card data; (b) a text that embeds a
fenced ```json block whose object maps `tenders` to a list renders the
surrounding prose with the block removed and trimmed, and the parsed list is
passed to the tender cards. -/
theorem c7_tender_extraction :
    (∀ text : List Char,
        containsCI (quoteKey tendersKey) text = false →
        containsCI (quoteKey eventsKey) text = false →
        renderBubble text = ⟨text, none⟩) ∧
    (∀ pre mid post : List Char, ∀ j : Json, ∀ l : List Json,
        (∀ c ∈ pre, c ≠ btick) → (∀ c ∈ pre, c ≠ lbrace) →
        (∀ c ∈ post, c ≠ btick) → (∀ c ∈ post, c ≠ lbrace) →
        (∀ c ∈ mid, c ≠ btick) →
        containsCI (quoteKeyColon tendersKey) mid = true →
        jsonParse (lbrace :: (mid ++ [rbrace])) = some j →
        objGet j tendersKey = some (Json.jarr l) →
        renderBubble (pre ++ (fenceLit ++ jsonLit ++ '\n' :: lbrace ::
            (mid ++ rbrace :: '\n' :: (fenceLit ++ post)))) =
          ⟨trimJs (pre ++ post), some (Json.jarr l)⟩) := by
  constructor
  · intro text h1 h2
    simp only [renderBubble, extract_none_of_no_key h1, extract_none_of_no_key h2,
      Option.map_none']
  · intro pre mid post j l hpb hpl hsb hsl hmb hocc hparse hget
    have hext := extract_fenced tendersKey pre mid post j (Json.jarr l) hpb hmb hocc
      (by decide) hparse hget rfl
    have htext : pre ++ (fenceLit ++ jsonLit ++ '\n' :: lbrace ::
        (mid ++ rbrace :: '\n' :: (fenceLit ++ post))) =
        pre ++ ((fenceLit ++ jsonLit ++ '\n' :: lbrace ::
          (mid ++ rbrace :: '\n' :: fenceLit)) ++ post) := by
      simp [List.append_assoc]
    have hrepl : replaceFirst
        (fenceLit ++ jsonLit ++ '\n' :: lbrace :: (mid ++ rbrace :: '\n' :: fenceLit))
        (pre ++ (fenceLit ++ jsonLit ++ '\n' :: lbrace ::
          (mid ++ rbrace :: '\n' :: (fenceLit ++ post)))) = pre ++ post := by
      rw [htext]
      exact replaceFirst_append _ pre post btick rfl hpb
    have hnb2 : ∀ c ∈ trimJs (pre ++ post), c ≠ btick := by
      intro c hc
      rcases List.mem_append.1 (mem_of_mem_trimJs hc) with h | h
      exacts [hpb c h, hsb c h]
    have hnl2 : ∀ c ∈ trimJs (pre ++ post), c ≠ lbrace := by
      intro c hc
      rcases List.mem_append.1 (mem_of_mem_trimJs hc) with h | h
      exacts [hpl c h, hsl c h]
    have her := extract_none_no_special eventsKey hnb2 hnl2
    simp only [renderBubble, hext, hrepl, her, Option.map_some']

/-- C7 witness: the plain answer `Hello`, and a fenced tenders block. -/
theorem c7_tender_extraction_witness :
    (containsCI (quoteKey tendersKey) ("Hello".data) = false ∧
      renderBubble ("Hello".data) = ⟨"Hello".data, none⟩) ∧
    (jsonParse (lbrace :: ("\"tenders\": [1]".data ++ [rbrace])) =
        some (Json.jobj [("tenders".data, Json.jarr [Json.jnum 1])]) ∧
      renderBubble ("See: ".data ++ (fenceLit ++ jsonLit ++ '\n' :: lbrace ::
          ("\"tenders\": [1]".data ++ rbrace :: '\n' :: (fenceLit ++ " ok".data)))) =
        ⟨trimJs ("See: ".data ++ " ok".data), some (Json.jarr [Json.jnum 1])⟩) :=
  ⟨⟨by decide, c7_tender_extraction.1 ("Hello".data) (by decide) (by decide)⟩,
   ⟨rfl, c7_tender_extraction.2 ("See: ".data) ("\"tenders\": [1]".data) (" ok".data)
      (Json.jobj [("tenders".data, Json.jarr [Json.jnum 1])]) [Json.jnum 1]
      (by decide) (by decide) (by decide) (by decide) (by decide) (by decide) rfl rfl⟩⟩

/-- C10: an events payload — fenced (first conjunct) or raw (second) — is
extracted and stripped from the displayed text exactly as a tenders payload
would be, but the rendered view carries no card data: the JSX passes only
tender data to a card component, and there is no events card. -/
theorem c10_events_stripped_not_rendered :
    (∀ pre mid post : List Char, ∀ j : Json, ∀ l : List Json,
        (∀ c ∈ pre, c ≠ btick) → (∀ c ∈ pre, c ≠ lbrace) →
        (∀ c ∈ post, c ≠ btick) → (∀ c ∈ post, c ≠ lbrace) →
        (∀ c ∈ mid, c ≠ btick) →
        containsCI (quoteKey tendersKey)
          (pre ++ (fenceLit ++ jsonLit ++ '\n' :: lbrace ::
            (mid ++ rbrace :: '\n' :: (fenceLit ++ post)))) = false →
        containsCI (quoteKeyColon eventsKey) mid = true →
        jsonParse (lbrace :: (mid ++ [rbrace])) = some j →
        objGet j eventsKey = some (Json.jarr l) →
        extractJsonData (pre ++ (fenceLit ++ jsonLit ++ '\n' :: lbrace ::
            (mid ++ rbrace :: '\n' :: (fenceLit ++ post)))) eventsKey =
          some (Json.jarr l,
            fenceLit ++ jsonLit ++ '\n' :: lbrace :: (mid ++ rbrace :: '\n' :: fenceLit)) ∧
        renderBubble (pre ++ (fenceLit ++ jsonLit ++ '\n' :: lbrace ::
            (mid ++ rbrace :: '\n' :: (fenceLit ++ post)))) =
          ⟨trimJs (pre ++ post), none⟩) ∧
    (∀ pre ws1 mid ws2 post : List Char, ∀ j : Json, ∀ l : List Json,
        (∀ c ∈ pre, c ≠ lbrace) →
        (∀ c ∈ pre ++ (lbrace :: (quoteKeyColon eventsKey ++
            (ws1 ++ '[' :: (mid ++ ']' :: (ws2 ++ rbrace :: post))))), c ≠ btick) →
        (∀ c ∈ ws1, isJsWsChar c = true) → (∀ c ∈ ws2, isJsWsChar c = true) →
        (∀ c ∈ mid, c ≠ ']') →
        containsCI (quoteKey tendersKey)
          (pre ++ (lbrace :: (quoteKeyColon eventsKey ++
            (ws1 ++ '[' :: (mid ++ ']' :: (ws2 ++ rbrace :: post)))))) = false →
        jsonParse (lbrace :: (quoteKeyColon eventsKey ++
            (ws1 ++ '[' :: (mid ++ ']' :: (ws2 ++ [rbrace]))))) = some j →
        objGet j eventsKey = some (Json.jarr l) →
        extractJsonData (pre ++ (lbrace :: (quoteKeyColon eventsKey ++
            (ws1 ++ '[' :: (mid ++ ']' :: (ws2 ++ rbrace :: post)))))) eventsKey =
          some (Json.jarr l, lbrace :: (quoteKeyColon eventsKey ++
            (ws1 ++ '[' :: (mid ++ ']' :: (ws2 ++ [rbrace]))))) ∧
        renderBubble (pre ++ (lbrace :: (quoteKeyColon eventsKey ++
            (ws1 ++ '[' :: (mid ++ ']' :: (ws2 ++ rbrace :: post)))))) =
          ⟨trimJs (pre ++ post), none⟩) := by
  constructor
  · intro pre mid post j l hpb hpl hsb hsl hmb hT hocc hparse hget
    have hev := extract_fenced eventsKey pre mid post j (Json.jarr l) hpb hmb hocc
      (by decide) hparse hget rfl
    refine ⟨hev, ?_⟩
    have htext : pre ++ (fenceLit ++ jsonLit ++ '\n' :: lbrace ::
        (mid ++ rbrace :: '\n' :: (fenceLit ++ post))) =
        pre ++ ((fenceLit ++ jsonLit ++ '\n' :: lbrace ::
          (mid ++ rbrace :: '\n' :: fenceLit)) ++ post) := by
      simp [List.append_assoc]
    have hrepl : replaceFirst
        (fenceLit ++ jsonLit ++ '\n' :: lbrace :: (mid ++ rbrace :: '\n' :: fenceLit))
        (pre ++ (fenceLit ++ jsonLit ++ '\n' :: lbrace ::
          (mid ++ rbrace :: '\n' :: (fenceLit ++ post)))) = pre ++ post := by
      rw [htext]
      exact replaceFirst_append _ pre post btick rfl hpb
    simp only [renderBubble, extract_none_of_no_key hT, hev, hrepl, Option.map_none']
  · intro pre ws1 mid ws2 post j l hpl hbt hws1 hws2 hmid hT hparse hget
    have hev := extract_raw eventsKey pre ws1 mid ws2 post j (Json.jarr l) hpl hbt
      hws1 hws2 hmid hparse hget rfl
    refine ⟨hev, ?_⟩
    have htext : pre ++ (lbrace :: (quoteKeyColon eventsKey ++
        (ws1 ++ '[' :: (mid ++ ']' :: (ws2 ++ rbrace :: post))))) =
        pre ++ ((lbrace :: (quoteKeyColon eventsKey ++
          (ws1 ++ '[' :: (mid ++ ']' :: (ws2 ++ [rbrace]))))) ++ post) := by
      simp [List.append_assoc]
    have hrepl : replaceFirst
        (lbrace :: (quoteKeyColon eventsKey ++ (ws1 ++ '[' :: (mid ++ ']' :: (ws2 ++ [rbrace])))))
        (pre ++ (lbrace :: (quoteKeyColon eventsKey ++
          (ws1 ++ '[' :: (mid ++ ']' :: (ws2 ++ rbrace :: post)))))) = pre ++ post := by
      rw [htext]
      exact replaceFirst_append _ pre post lbrace rfl hpl
    simp only [renderBubble, extract_none_of_no_key hT, hev, hrepl, Option.map_none']

/-- C10 witness: a fenced events block and a raw events object. -/
theorem c10_events_witness :
    (jsonParse (lbrace :: ("\"events\": [2]".data ++ [rbrace])) =
        some (Json.jobj [("events".data, Json.jarr [Json.jnum 2])]) ∧
      renderBubble ("Events: ".data ++ (fenceLit ++ jsonLit ++ '\n' :: lbrace ::
          ("\"events\": [2]".data ++ rbrace :: '\n' :: (fenceLit ++ " end".data)))) =
        ⟨trimJs ("Events: ".data ++ " end".data), none⟩) ∧
    (jsonParse (lbrace :: (quoteKeyColon eventsKey ++
        ([' '] ++ '[' :: ("3".data ++ ']' :: ([] ++ [rbrace]))))) =
        some (Json.jobj [("events".data, Json.jarr [Json.jnum 3])]) ∧
      renderBubble ("List: ".data ++ (lbrace :: (quoteKeyColon eventsKey ++
          ([' '] ++ '[' :: ("3".data ++ ']' :: ([] ++ rbrace :: " tail".data)))))) =
        ⟨trimJs ("List: ".data ++ " tail".data), none⟩) :=
  ⟨⟨rfl, ((c10_events_stripped_not_rendered.1 ("Events: ".data) ("\"events\": [2]".data)
      (" end".data) (Json.jobj [("events".data, Json.jarr [Json.jnum 2])]) [Json.jnum 2]
      (by decide) (by decide) (by decide) (by decide) (by decide) (by decide) (by decide)
      rfl rfl).2)⟩,
   ⟨rfl, ((c10_events_stripped_not_rendered.2 ("List: ".data) [' '] ("3".data) []
      (" tail".data) (Json.jobj [("events".data, Json.jarr [Json.jnum 3])]) [Json.jnum 3]
      (by decide) (by decide) (by decide) (by decide) (by decide) (by decide)
      rfl rfl).2)⟩⟩

end CRRI
